import Mathlib

/-!
Shallow embedding of the SmartHomeFOL inference engine
(`src/inference_engine.py`) and verification of the frozen claims.

Python dynamic values that flow through the engine are strings, integers
and argument lists; they are modelled by the inductive type `Val`.
Python dicts used as substitutions are modelled as insertion-ordered
association lists with unique keys.  The engine's generator-based
recursive search and the chain-following loops can diverge on
pathological inputs, so every recursive procedure takes an explicit
fuel parameter and returns `none` when the fuel runs out; `none` thus
stands for a computation that was not observed to finish (and, where
noted, for a raised exception that aborts the search).
-/

/-- A Python value handled by the engine: a string atom, an integer, or
an argument list. -/
inductive Val where
  | vstr (s : String)
  | vint (n : Int)
  | vlist (xs : List Val)

/- Python `==` on engine values: strings compare as strings, integers
as integers, lists elementwise; values of different shapes are unequal
(in particular `"5" == 5` is `False` in Python). -/
mutual
def Val.beq : Val → Val → Bool
  | .vstr a, .vstr b => a == b
  | .vint a, .vint b => a == b
  | .vlist xs, .vlist ys => Val.beqList xs ys
  | _, _ => false
def Val.beqList : List Val → List Val → Bool
  | [], [] => true
  | x :: xs, y :: ys => Val.beq x y && Val.beqList xs ys
  | _, _ => false
end

mutual
theorem Val.beq_iff : ∀ a b : Val, Val.beq a b = true ↔ a = b
  | .vstr _, .vstr _ => by simp [Val.beq]
  | .vstr _, .vint _ => by simp [Val.beq]
  | .vstr _, .vlist _ => by simp [Val.beq]
  | .vint _, .vstr _ => by simp [Val.beq]
  | .vint _, .vint _ => by simp [Val.beq]
  | .vint _, .vlist _ => by simp [Val.beq]
  | .vlist _, .vstr _ => by simp [Val.beq]
  | .vlist _, .vint _ => by simp [Val.beq]
  | .vlist xs, .vlist ys => by
      simp only [Val.beq, Val.beqList_iff xs ys, Val.vlist.injEq]
theorem Val.beqList_iff : ∀ xs ys : List Val, Val.beqList xs ys = true ↔ xs = ys
  | [], [] => by simp [Val.beqList]
  | [], _ :: _ => by simp [Val.beqList]
  | _ :: _, [] => by simp [Val.beqList]
  | x :: xs, y :: ys => by
      simp [Val.beqList, Bool.and_eq_true, Val.beq_iff x y, Val.beqList_iff xs ys]
end

instance : DecidableEq Val := fun a b =>
  decidable_of_iff (Val.beq a b = true) (Val.beq_iff a b)

/-- First character class of `VAR_RE = ^[A-Z_][A-Za-z0-9_]*$`. -/
def isVarHead (c : Char) : Bool := c.isUpper || c == '_'

/-- Tail character class of `VAR_RE`. -/
def isVarTail (c : Char) : Bool := c.isAlphanum || c == '_'

/-- The character list matches `[A-Z_][A-Za-z0-9_]*` exactly. -/
def varCore : List Char → Bool
  | [] => false
  | c :: rest => isVarHead c && rest.all isVarTail

/-- `VAR_RE.match(s) is not None`: Python `$` also matches just before a
single trailing newline, which `re.match` anchored at the start makes
the only extra case. -/
def matchesVarRe (s : String) : Bool :=
  varCore s.data ||
    (match s.data.getLast? with
     | some c => c == '\n' && varCore s.data.dropLast
     | none => false)

/-- `is_variable` from the source: a term is a variable iff it is a
string matching `VAR_RE`. -/
def is_variable (x : Val) : Bool :=
  match x with
  | .vstr s => matchesVarRe s
  | _ => false

/-- The variable name of a term when `is_variable` holds. -/
def asVarName (x : Val) : Option String :=
  match x with
  | .vstr s => if matchesVarRe s then some s else none
  | _ => none

/-- A substitution: a Python dict from variable names to values,
modelled as an association list in insertion order. -/
abbrev Subst := List (String × Val)

/-- Dict lookup (`theta[k]` / `k in theta`): first binding of the key. -/
def lookup : Subst → String → Option Val
  | [], _ => none
  | (k, v) :: rest, s => if k = s then some v else lookup rest s

/- `occurs_check(var, x, theta)` from the source, with fuel: `some b`
when the Python recursion finishes with result `b`. -/
mutual
def occurs_check : Nat → String → Val → Subst → Option Bool
  | 0, _, _, _ => none
  | fuel + 1, var, x, theta =>
    if x = Val.vstr var then some true
    else
      match x with
      | .vstr s =>
        if matchesVarRe s then
          match lookup theta s with
          | some v => occurs_check fuel var v theta
          | none => some false
        else some false
      | .vlist xs => occursList fuel var xs theta
      | .vint _ => some false
def occursList : Nat → String → List Val → Subst → Option Bool
  | 0, _, _, _ => none
  | _ + 1, _, [], _ => some false
  | fuel + 1, var, x :: xs, theta =>
    match occurs_check fuel var x theta with
    | none => none
    | some true => some true
    | some false => occursList fuel var xs theta
end

/-- The body of the `while term in theta` loop of
`apply_subst_to_term`: follow the binding chain until the current term
is no longer a dict key.  Only strings can be keys; an integer is never
a key, and a list would be unhashable in Python (the engine never binds
a variable to a list along a resolved chain), modelled as `none`. -/
def subst_chain : Nat → Val → Subst → Option Val
  | fuel, .vstr s, theta =>
    (match lookup theta s, fuel with
     | some v, fuel' + 1 => subst_chain fuel' v theta
     | some _, 0 => none
     | none, _ => some (.vstr s))
  | _, .vint n, _ => some (.vint n)
  | _, .vlist _, _ => none

/-- `apply_subst_to_term(term, theta)` from the source. -/
def apply_subst_to_term (fuel : Nat) (term : Val) (theta : Subst) : Option Val :=
  if is_variable term then subst_chain fuel term theta else some term

/-- `apply_subst_to_args(args, theta)` from the source. -/
def apply_subst_to_args (fuel : Nat) : List Val → Subst → Option (List Val)
  | [], _ => some []
  | a :: rest, theta =>
    match apply_subst_to_term fuel a theta, apply_subst_to_args fuel rest theta with
    | some r, some rs => some (r :: rs)
    | _, _ => none

/-- `compose(theta1, theta2)` from the source: rewrite each binding of
`theta1` whose value is a variable bound in `theta2` to that binding,
then append the bindings of `theta2` whose keys are not already
present. -/
def compose (theta1 theta2 : Subst) : Subst :=
  theta1.map
    (fun p =>
      match p.2 with
      | .vstr s =>
        if matchesVarRe s then
          match lookup theta2 s with
          | some w => (p.1, w)
          | none => p
        else p
      | _ => p)
  ++ theta2.filter (fun q => (lookup theta1 q.1).isNone)

/- `unify` / `unify_var` from the source, with fuel.  The outer
`Option` is the fuel monad (`none` = not observed to finish); the inner
`Option Subst` is the source's result (`None` = unification failure).
`unify_bind` is the tail of `unify_var`: the occurs-check guard
followed by extension of the substitution with the new binding. -/
mutual
def unify : Nat → Val → Val → Option Subst → Option (Option Subst)
  | 0, _, _, _ => none
  | fuel + 1, x, y, thetaOpt =>
    match thetaOpt with
    | none => some none
    | some theta =>
      if x = y then some (some theta)
      else
        match asVarName x with
        | some sx => unify_var fuel sx y theta
        | none =>
          match asVarName y with
          | some sy => unify_var fuel sy x theta
          | none =>
            match x, y with
            | .vlist xs, .vlist ys =>
              if xs.length = ys.length then unifyArgs fuel xs ys theta
              else some none
            | _, _ => some none
def unify_var : Nat → String → Val → Subst → Option (Option Subst)
  | 0, _, _, _ => none
  | fuel + 1, var, x, theta =>
    match lookup theta var with
    | some v => unify fuel v x (some theta)
    | none =>
      match asVarName x with
      | some s =>
        match lookup theta s with
        | some v => unify fuel (.vstr var) v (some theta)
        | none => unify_bind fuel var x theta
      | none => unify_bind fuel var x theta
def unify_bind : Nat → String → Val → Subst → Option (Option Subst)
  | 0, _, _, _ => none
  | fuel + 1, var, x, theta =>
    match occurs_check (fuel + 1) var x theta with
    | none => none
    | some true => some none
    | some false => some (some (theta ++ [(var, x)]))
def unifyArgs : Nat → List Val → List Val → Subst → Option (Option Subst)
  | 0, _, _, _ => none
  | _ + 1, [], _, theta => some (some theta)
  | _ + 1, _ :: _, [], theta => some (some theta)
  | fuel + 1, x :: xs, y :: ys, theta =>
    match unify fuel x y (some theta) with
    | none => none
    | some none => some none
    | some (some theta') => unifyArgs fuel xs ys theta'
end

/-- A fact `("Predicate", [args])`. -/
abbrev KBFact := String × List Val

/-- A literal `{"pred": ..., "args": [...], "negated": ...}`. -/
structure Literal where
  pred : String
  args : List Val
  negated : Bool

/-- A rule `{"head": (pred, args), "body": [literals]}`. -/
structure Rule where
  head : String × List Val
  body : List Literal

/-- `facts_for_pred` from the source. -/
def facts_for_pred (facts : List KBFact) (pred_name : String) : List KBFact :=
  facts.filter (fun f => f.1 = pred_name)

/-- `rules_for_head` from the source. -/
def rules_for_head (rules : List Rule) (pred_name : String) : List Rule :=
  rules.filter (fun r => r.head.1 = pred_name)

/-- `rename_term` inside `rename_rule`: a variable `V` becomes
`V__<uid>` (the memoising dict of the source is semantically the
identity map `V ↦ V__uid`). -/
def rename_term (uid : Nat) (t : Val) : Val :=
  match t with
  | .vstr s => if matchesVarRe s then .vstr (s ++ "__" ++ toString uid) else t
  | _ => t

/-- `rename_rule(rule)` from the source; `uid` is the value drawn from
the process-wide counter for this call. -/
def rename_rule (uid : Nat) (rule : Rule) : Rule :=
  { head := (rule.head.1, rule.head.2.map (rename_term uid)),
    body := rule.body.map
      (fun lit => { pred := lit.pred, args := lit.args.map (rename_term uid),
                    negated := lit.negated }) }

/-- `re.fullmatch(r'-?\d+', s)` (the regex is ASCII here, matching the
literals the parser produces). -/
def isIntLiteral (s : String) : Bool :=
  match s.data with
  | [] => false
  | c :: rest =>
    if c = '-' then !rest.isEmpty && rest.all Char.isDigit
    else (c :: rest).all Char.isDigit

/-- Value of a decimal digit list. -/
def digitsToNat (ds : List Char) : Nat :=
  ds.foldl (fun acc c => acc * 10 + (c.toNat - '0'.toNat)) 0

/-- `int(s)` on a string matching `-?\d+`. -/
def strToInt (s : String) : Int :=
  match s.data with
  | [] => 0
  | c :: rest =>
    if c = '-' then -(digitsToNat rest : Int) else (digitsToNat (c :: rest) : Int)

/-- The numeric-string coercion step of `eval_builtin`. -/
def coerce (v : Val) : Val :=
  match v with
  | .vstr s => if isIntLiteral s then .vint (strToInt s) else v
  | _ => v

/- Python `<` on the value shapes the engine handles: defined for
int/int, str/str (code-point lexicographic) and list/list
(elementwise); any mixed pair raises `TypeError`, modelled as `none`. -/
mutual
def pyLt : Val → Val → Option Bool
  | .vint m, .vint n => some (decide (m < n))
  | .vstr s, .vstr t => some (decide (s < t))
  | .vlist xs, .vlist ys => pyLtList xs ys
  | _, _ => none
def pyLtList : List Val → List Val → Option Bool
  | [], [] => some false
  | [], _ :: _ => some true
  | _ :: _, [] => some false
  | x :: xs, y :: ys => if x = y then pyLtList xs ys else pyLt x y
end

/-- Python `a > b` for these types is the mirrored comparison `b < a`. -/
def pyGt (a b : Val) : Option Bool := pyLt b a

/-- `eval_builtin(pred, args, theta)` from the source.  The result is
`some (some b)` when the Python call returns the boolean `b`,
`some none` when it raises (the comparison operators sit outside the
`try` block), and `none` when resolution ran out of fuel.  The `try`
block guards the argument unpacking, so fewer than two resolved
arguments give `False`. -/
def eval_builtin (fuel : Nat) (pred : String) (args : List Val) (theta : Subst) :
    Option (Option Bool) :=
  match apply_subst_to_args fuel args theta with
  | none => none
  | some resolved =>
    match resolved with
    | a :: b :: _ =>
      if is_variable a || is_variable b then some (some false)
      else
        let a' := coerce a
        let b' := coerce b
        if pred = "GreaterThan" then some (pyGt a' b')
        else if pred = "LessThan" then some (pyLt a' b')
        else some (some false)
    | _ => some (some false)

/- `prove_literal` / `prove_all` from the source.  The lazy generators
are modelled as eagerly computed lists of solutions in the same
depth-first discovery order; the process-wide rename counter is
threaded explicitly.  `proveFacts` is the loop over matching facts,
`proveRules` the loop over matching rules, and `proveAllOver` the
iteration of `prove_all` over the solution stream of the first body
literal.  `none` propagates fuel exhaustion and (through
`eval_builtin`) a raised comparison exception. -/
mutual
def prove_literal : Nat → Literal → List KBFact → List Rule → Subst → Nat →
    Option (List Subst × Nat)
  | 0, _, _, _, _, _ => none
  | fuel + 1, lit, facts, rules, theta, ctr =>
    if lit.negated then
      match prove_literal fuel { pred := lit.pred, args := lit.args, negated := false }
          facts rules theta ctr with
      | none => none
      | some (sols, ctr') =>
        if sols.isEmpty then some ([theta], ctr') else some ([], ctr')
    else if lit.pred = "GreaterThan" ∨ lit.pred = "LessThan" then
      match eval_builtin fuel lit.pred lit.args theta with
      | none => none
      | some none => none
      | some (some true) => some ([theta], ctr)
      | some (some false) => some ([], ctr)
    else
      match proveFacts fuel lit.args (facts_for_pred facts lit.pred) theta with
      | none => none
      | some factSols =>
        match proveRules fuel lit.args (rules_for_head rules lit.pred)
            facts rules theta ctr with
        | none => none
        | some (ruleSols, ctr') => some (factSols ++ ruleSols, ctr')
termination_by structural fuel => fuel
def proveFacts : Nat → List Val → List KBFact → Subst → Option (List Subst)
  | 0, _, _, _ => none
  | _ + 1, _, [], _ => some []
  | fuel + 1, args, f :: fs, theta =>
    match unify fuel (.vlist args) (.vlist f.2) (some theta) with
    | none => none
    | some none => proveFacts fuel args fs theta
    | some (some theta') =>
      match proveFacts fuel args fs theta with
      | none => none
      | some rest => some (theta' :: rest)
termination_by structural fuel => fuel
def proveRules : Nat → List Val → List Rule → List KBFact → List Rule → Subst → Nat →
    Option (List Subst × Nat)
  | 0, _, _, _, _, _, _ => none
  | _ + 1, _, [], _, _, _, ctr => some ([], ctr)
  | fuel + 1, args, r :: rs, facts, rules, theta, ctr =>
    let rr := rename_rule ctr r
    match unify fuel (.vlist args) (.vlist rr.head.2) (some theta) with
    | none => none
    | some none => proveRules fuel args rs facts rules theta (ctr + 1)
    | some (some theta') =>
      match prove_all fuel rr.body facts rules theta' (ctr + 1) with
      | none => none
      | some (sols, ctr') =>
        match proveRules fuel args rs facts rules theta ctr' with
        | none => none
        | some (sols2, ctr'') => some (sols ++ sols2, ctr'')
termination_by structural fuel => fuel
def prove_all : Nat → List Literal → List KBFact → List Rule → Subst → Nat →
    Option (List Subst × Nat)
  | 0, _, _, _, _, _ => none
  | _ + 1, [], _, _, theta, ctr => some ([theta], ctr)
  | fuel + 1, first :: rest, facts, rules, theta, ctr =>
    match prove_literal fuel first facts rules theta ctr with
    | none => none
    | some (sols1, ctr') => proveAllOver fuel rest facts rules sols1 ctr'
termination_by structural fuel => fuel
def proveAllOver : Nat → List Literal → List KBFact → List Rule → List Subst → Nat →
    Option (List Subst × Nat)
  | 0, _, _, _, _, _ => none
  | _ + 1, _, _, _, [], ctr => some ([], ctr)
  | fuel + 1, rest, facts, rules, theta1 :: more, ctr =>
    match prove_all fuel rest facts rules theta1 ctr with
    | none => none
    | some (sols1, ctr') =>
      match proveAllOver fuel rest facts rules more ctr' with
      | none => none
      | some (sols2, ctr'') => some (sols1 ++ sols2, ctr'')
termination_by structural fuel => fuel
end

/-- The per-entry loop of the normalisation step of `ask`: each bound
value is dereferenced through the full final substitution `theta`,
keys kept in insertion order. -/
def normalizeEntries (fuel : Nat) (theta : Subst) : List (String × Val) → Option Subst
  | [] => some []
  | p :: rest =>
    match apply_subst_to_term fuel p.2 theta, normalizeEntries fuel theta rest with
    | some r, some rs => some ((p.1, r) :: rs)
    | _, _ => none

/-- Normalisation of one solution: resolve chains like `X=Y, Y=a`. -/
def normalizeSubst (fuel : Nat) (theta : Subst) : Option Subst :=
  normalizeEntries fuel theta theta

/-- Normalisation of the whole solution stream, order preserved. -/
def normalizeAll (fuel : Nat) : List Subst → Option (List Subst)
  | [] => some []
  | theta :: rest =>
    match normalizeSubst fuel theta, normalizeAll fuel rest with
    | some n, some ns => some (n :: ns)
    | _, _ => none

/-- `ask(query, facts, rules)` from the source: run the prover from the
empty substitution and normalise every solution, preserving discovery
order.  `ctr` is the current value of the process-wide rename
counter. -/
def ask (fuel : Nat) (query : Literal) (facts : List KBFact) (rules : List Rule)
    (ctr : Nat) : Option (List Subst) :=
  match prove_literal fuel query facts rules [] ctr with
  | none => none
  | some (sols, _) => normalizeAll fuel sols

/-! ## Substitution wellformedness and the occurs relation -/

/-- The key list of a substitution (Python `theta.keys()`). -/
def keys (theta : Subst) : List String := theta.map Prod.fst

theorem lookup_append (theta1 theta2 : Subst) (s : String) :
    lookup (theta1 ++ theta2) s =
      match lookup theta1 s with
      | some v => some v
      | none => lookup theta2 s := by
  induction theta1 with
  | nil => simp [lookup]
  | cons p rest ih =>
    obtain ⟨k, v⟩ := p
    by_cases h : k = s <;> simp [lookup, h, ih]

theorem lookup_mem {theta : Subst} {s : String} {v : Val}
    (h : lookup theta s = some v) : (s, v) ∈ theta := by
  induction theta with
  | nil => simp [lookup] at h
  | cons p rest ih =>
    obtain ⟨k, w⟩ := p
    by_cases hk : k = s
    · subst hk
      simp [lookup] at h
      simp [h]
    · simp [lookup, hk] at h
      exact List.mem_cons_of_mem _ (ih h)

theorem lookup_none_of_not_mem_keys {theta : Subst} {s : String}
    (h : s ∉ keys theta) : lookup theta s = none := by
  induction theta with
  | nil => simp [lookup]
  | cons p rest ih =>
    simp [keys] at h
    push_neg at h
    simp [lookup, Ne.symm h.1, ih (by simp [keys, h.2])]

theorem mem_keys_of_lookup {theta : Subst} {s : String} {v : Val}
    (h : lookup theta s = some v) : s ∈ keys theta := by
  have := lookup_mem h
  exact List.mem_map_of_mem Prod.fst this

/-- The occurs relation of the data model: variable `v` appears in the
term, following bindings of variables through the substitution and
descending into argument lists — exactly the search `occurs_check`
performs. -/
inductive VarOccursIn (theta : Subst) (v : String) : Val → Prop where
  | base : VarOccursIn theta v (.vstr v)
  | chain (s : String) (t : Val) : matchesVarRe s = true → lookup theta s = some t →
      VarOccursIn theta v t → VarOccursIn theta v (.vstr s)
  | inList (x : Val) (xs : List Val) : x ∈ xs → VarOccursIn theta v x →
      VarOccursIn theta v (.vlist xs)

/-- The acyclicity invariant of the data model: no variable is
(transitively, through the substitution) bound to a term containing
that same variable. -/
def AcyclicS (theta : Subst) : Prop :=
  ∀ v t, lookup theta v = some t → ¬ VarOccursIn theta v t

/-- Substitution wellformedness from the data model: keys are unique
and are variable names. -/
def WFS (theta : Subst) : Prop :=
  (keys theta).Nodup ∧ ∀ p ∈ theta, matchesVarRe p.1 = true

/-- A non-list value (the data model's "variable or constant" term). -/
def atomVal (x : Val) : Bool :=
  match x with
  | .vlist _ => false
  | _ => true

/-- All values of the substitution are atoms, as the data model
requires of substitutions ("mapping from variable name to term
(variable or constant)"). -/
def AtomSub (theta : Subst) : Prop := ∀ p ∈ theta, atomVal p.2 = true

instance (theta : Subst) : Decidable (AtomSub theta) := by
  unfold AtomSub
  infer_instance

instance (theta : Subst) : Decidable (WFS theta) := by
  unfold WFS
  infer_instance

theorem WFS_nil : WFS [] := by constructor <;> simp [keys]

theorem AcyclicS_nil : AcyclicS [] := by
  intro v t h
  simp [lookup] at h

theorem AtomSub_nil : AtomSub [] := by intro p hp; simp at hp

theorem asVarName_eq_some {x : Val} {s : String} (h : asVarName x = some s) :
    x = .vstr s ∧ matchesVarRe s = true := by
  cases x with
  | vstr t =>
    simp only [asVarName] at h
    by_cases hm : matchesVarRe t
    · rw [if_pos hm] at h
      obtain rfl := Option.some.inj h
      exact ⟨rfl, hm⟩
    · rw [if_neg hm] at h
      cases h
  | vint n => simp [asVarName] at h
  | vlist xs => simp [asVarName] at h

theorem asVarName_eq_none {x : Val} (h : asVarName x = none) :
    is_variable x = false := by
  cases x with
  | vstr t =>
    simp only [asVarName] at h
    by_cases hm : matchesVarRe t
    · rw [if_pos hm] at h
      cases h
    · simp only [is_variable]
      simpa using hm
  | vint n => simp [is_variable]
  | vlist xs => simp [is_variable]

/-- `occurs_check` decides exactly the `VarOccursIn` relation whenever
it finishes. -/
theorem occurs_check_correct : ∀ fuel : Nat,
    (∀ var x theta b, occurs_check fuel var x theta = some b →
      (b = true ↔ VarOccursIn theta var x)) ∧
    (∀ var xs theta b, occursList fuel var xs theta = some b →
      (b = true ↔ ∃ x ∈ xs, VarOccursIn theta var x)) := by
  intro fuel
  induction fuel with
  | zero =>
    constructor
    · intro var x theta b h; simp [occurs_check] at h
    · intro var xs theta b h; simp [occursList] at h
  | succ fuel ih =>
    obtain ⟨ih1, ih2⟩ := ih
    constructor
    · intro var x theta b h
      cases x with
      | vstr s =>
        simp only [occurs_check] at h
        by_cases hx : Val.vstr s = Val.vstr var
        · rw [if_pos hx] at h
          injection h with h
          subst h
          injection hx with hx
          subst hx
          simp
          exact VarOccursIn.base
        · rw [if_neg hx] at h
          by_cases hm : matchesVarRe s
          · rw [if_pos hm] at h
            cases hlook : lookup theta s with
            | some v =>
              rw [hlook] at h
              rw [ih1 var v theta b h]
              constructor
              · intro hv
                exact VarOccursIn.chain s v hm hlook hv
              · intro hv
                cases hv with
                | base => exact absurd rfl hx
                | chain s t hm2 hl2 ht =>
                  rw [hlook] at hl2
                  injection hl2 with hl2
                  rwa [hl2]
            | none =>
              rw [hlook] at h
              injection h with h
              subst h
              simp
              intro hv
              cases hv with
              | base => exact hx rfl
              | chain s t hm2 hl2 ht => rw [hlook] at hl2; cases hl2
          · rw [if_neg hm] at h
            injection h with h
            subst h
            simp
            intro hv
            cases hv with
            | base => exact hx rfl
            | chain s t hm2 hl2 ht => exact absurd hm2 (by simp [hm])
      | vint n =>
        simp only [occurs_check] at h
        rw [if_neg (by simp)] at h
        injection h with h
        subst h
        simp
        intro hv
        cases hv
      | vlist xs =>
        simp only [occurs_check] at h
        rw [if_neg (by simp)] at h
        rw [ih2 var xs theta b h]
        constructor
        · rintro ⟨x, hxmem, hocc⟩
          exact VarOccursIn.inList x xs hxmem hocc
        · intro hv
          cases hv with
          | inList x xs hxmem hocc => exact ⟨x, hxmem, hocc⟩
    · intro var xs theta b h
      cases xs with
      | nil =>
        simp [occursList] at h
        subst h
        simp
      | cons x rest =>
        simp only [occursList] at h
        cases hc : occurs_check fuel var x theta with
        | none => rw [hc] at h; cases h
        | some bx =>
          rw [hc] at h
          have hx := ih1 var x theta bx hc
          cases bx with
          | true =>
            injection h with h
            subst h
            simp
            exact Or.inl (hx.mp rfl)
          | false =>
            rw [ih2 var rest theta b h]
            have hnx : ¬ VarOccursIn theta var x := by
              intro hocc
              have := hx.mpr hocc
              cases this
            constructor
            · rintro ⟨z, hz, ho⟩
              exact ⟨z, List.mem_cons_of_mem _ hz, ho⟩
            · rintro ⟨z, hz, ho⟩
              rcases List.mem_cons.mp hz with rfl | hz2
              · exact absurd ho hnx
              · exact ⟨z, hz2, ho⟩

theorem lookup_isSome_of_mem_keys {theta : Subst} {s : String}
    (h : s ∈ keys theta) : ∃ v, lookup theta s = some v := by
  induction theta with
  | nil => simp [keys] at h
  | cons p rest ih =>
    obtain ⟨k, w⟩ := p
    by_cases hk : k = s
    · exact ⟨w, by simp [lookup, hk]⟩
    · simp [keys, Ne.symm hk] at h
      rcases ih (by simp [keys, h]) with ⟨v, hv⟩
      exact ⟨v, by simp [lookup, hk, hv]⟩

theorem not_mem_keys_of_lookup_none {theta : Subst} {s : String}
    (h : lookup theta s = none) : s ∉ keys theta := by
  intro hmem
  rcases lookup_isSome_of_mem_keys hmem with ⟨v, hv⟩
  rw [h] at hv
  cases hv

theorem lookup_append_elim {theta delta : Subst} {s : String} {t : Val}
    (h : lookup (theta ++ delta) s = some t) :
    lookup theta s = some t ∨ (lookup theta s = none ∧ lookup delta s = some t) := by
  cases hls : lookup theta s with
  | some w =>
    rw [lookup_append, hls] at h
    exact Or.inl (by exact h)
  | none =>
    rw [lookup_append, hls] at h
    exact Or.inr ⟨rfl, h⟩

theorem lookup_single {v s : String} {x t : Val}
    (h : lookup [(v, x)] s = some t) : v = s ∧ x = t := by
  by_cases hv : v = s
  · simp [lookup, hv] at h
    exact ⟨hv, h⟩
  · simp [lookup, hv] at h

theorem varOccursIn_mono {theta delta : Subst} {u : String} {t : Val}
    (h : VarOccursIn theta u t) : VarOccursIn (theta ++ delta) u t := by
  induction h with
  | base => exact VarOccursIn.base
  | chain s t' hm hl _ ih =>
    exact VarOccursIn.chain s t' hm (by rw [lookup_append, hl]) ih
  | inList x xs hxmem _ ih => exact VarOccursIn.inList x xs hxmem ih

/-- Decomposition of an occurs-path through a substitution extended by
one fresh binding: either the path never uses the new binding, or it
first reaches the new variable without it. -/
theorem varOccursIn_append_elim {theta : Subst} {v : String} {x : Val} {u : String}
    {t : Val} (_hfresh : lookup theta v = none)
    (h : VarOccursIn (theta ++ [(v, x)]) u t) :
    VarOccursIn theta u t ∨
      (VarOccursIn theta v t ∧ VarOccursIn (theta ++ [(v, x)]) u x) := by
  induction h with
  | base => exact Or.inl VarOccursIn.base
  | chain s t' hm hl ht' ih =>
    rcases lookup_append_elim hl with hθ | ⟨hθn, hδ⟩
    · rcases ih with h1 | ⟨h1, h2⟩
      · exact Or.inl (VarOccursIn.chain s t' hm hθ h1)
      · exact Or.inr ⟨VarOccursIn.chain s t' hm hθ h1, h2⟩
    · obtain ⟨hvs, hxt⟩ := lookup_single hδ
      subst hvs
      subst hxt
      exact Or.inr ⟨VarOccursIn.base, ht'⟩
  | inList z xs hzmem _ ih =>
    rcases ih with h1 | ⟨h1, h2⟩
    · exact Or.inl (VarOccursIn.inList z xs hzmem h1)
    · exact Or.inr ⟨VarOccursIn.inList z xs hzmem h1, h2⟩

/-- If the path from `x` reaches `u`, and `u` is bound to `t` in which
`w` occurs, then `w` occurs in `x`. -/
theorem varOccursIn_trans {theta : Subst} {u w : String} {t x : Val}
    (hu : matchesVarRe u = true) (hlook : lookup theta u = some t)
    (hwt : VarOccursIn theta w t) (hux : VarOccursIn theta u x) :
    VarOccursIn theta w x := by
  induction hux with
  | base => exact VarOccursIn.chain u t hu hlook hwt
  | chain s t' hm hl _ ih => exact VarOccursIn.chain s t' hm hl ih
  | inList z xs hzmem _ ih => exact VarOccursIn.inList z xs hzmem ih

/-- Extending a wellformed acyclic substitution by a fresh,
occurs-check-cleared binding keeps it wellformed and acyclic. -/
theorem acyclic_extend {theta : Subst} {v : String} {x : Val}
    (hWF : WFS theta) (hAc : AcyclicS theta) (hfresh : lookup theta v = none)
    (hv : matchesVarRe v = true) (hnocc : ¬ VarOccursIn theta v x) :
    WFS (theta ++ [(v, x)]) ∧ AcyclicS (theta ++ [(v, x)]) := by
  constructor
  · constructor
    · have hk : keys (theta ++ [(v, x)]) = keys theta ++ [v] := by simp [keys]
      rw [hk]
      rw [List.nodup_append]
      refine ⟨hWF.1, List.nodup_singleton v, ?_⟩
      intro a ha hb
      simp at hb
      subst hb
      exact not_mem_keys_of_lookup_none hfresh ha
    · intro p hp
      rcases List.mem_append.mp hp with h1 | h1
      · exact hWF.2 p h1
      · simp at h1
        subst h1
        exact hv
  · intro u t hlook hocc
    rcases lookup_append_elim hlook with hθu | ⟨hθn, hδ⟩
    · rcases varOccursIn_append_elim hfresh hocc with h1 | ⟨h1, h2⟩
      · exact hAc u t hθu h1
      · rcases varOccursIn_append_elim hfresh h2 with h3 | ⟨h3, _⟩
        · have hu : matchesVarRe u = true := hWF.2 _ (lookup_mem hθu)
          exact hnocc (varOccursIn_trans hu hθu h1 h3)
        · exact hnocc h3
    · obtain ⟨hvu, hxt⟩ := lookup_single hδ
      subst hvu
      subst hxt
      rcases varOccursIn_append_elim hfresh hocc with h1 | ⟨h1, _⟩ <;>
        exact hnocc h1

/-- Every successful unification extends the substitution only with
occurs-check-cleared fresh bindings, so wellformedness and acyclicity
are preserved, and the result extends the input. -/
theorem unify_preserves : ∀ fuel : Nat,
    (∀ x y theta theta2, WFS theta → AcyclicS theta →
      unify fuel x y (some theta) = some (some theta2) →
      (WFS theta2 ∧ AcyclicS theta2) ∧ ∃ delta, theta2 = theta ++ delta) ∧
    (∀ var x theta theta2, WFS theta → AcyclicS theta → matchesVarRe var = true →
      unify_var fuel var x theta = some (some theta2) →
      (WFS theta2 ∧ AcyclicS theta2) ∧ ∃ delta, theta2 = theta ++ delta) ∧
    (∀ var x theta theta2, WFS theta → AcyclicS theta → matchesVarRe var = true →
      lookup theta var = none →
      unify_bind fuel var x theta = some (some theta2) →
      (WFS theta2 ∧ AcyclicS theta2) ∧ ∃ delta, theta2 = theta ++ delta) ∧
    (∀ xs ys theta theta2, WFS theta → AcyclicS theta →
      unifyArgs fuel xs ys theta = some (some theta2) →
      (WFS theta2 ∧ AcyclicS theta2) ∧ ∃ delta, theta2 = theta ++ delta) := by
  intro fuel
  induction fuel with
  | zero =>
    refine ⟨?_, ?_, ?_, ?_⟩
    · intro x y theta theta2 _ _ h; simp [unify] at h
    · intro var x theta theta2 _ _ _ h; simp [unify_var] at h
    · intro var x theta theta2 _ _ _ _ h; simp [unify_bind] at h
    · intro xs ys theta theta2 _ _ h; simp [unifyArgs] at h
  | succ fuel ih =>
    obtain ⟨ihU, ihV, ihB, ihA⟩ := ih
    refine ⟨?_, ?_, ?_, ?_⟩
    · intro x y theta theta2 hWF hAc h
      simp only [unify] at h
      by_cases hxy : x = y
      · rw [if_pos hxy] at h
        injection h with h
        injection h with h
        subst h
        exact ⟨⟨hWF, hAc⟩, [], by simp⟩
      · rw [if_neg hxy] at h
        cases hax : asVarName x with
        | some sx =>
          rw [hax] at h
          exact ihV sx y theta theta2 hWF hAc (asVarName_eq_some hax).2 h
        | none =>
          rw [hax] at h
          cases hay : asVarName y with
          | some sy =>
            rw [hay] at h
            exact ihV sy x theta theta2 hWF hAc (asVarName_eq_some hay).2 h
          | none =>
            rw [hay] at h
            cases x with
            | vstr s => cases y <;> simp_all
            | vint n => cases y <;> simp_all
            | vlist xs =>
              cases y with
              | vstr t => simp_all
              | vint m => simp_all
              | vlist ys =>
                simp only [] at h
                by_cases hlen : xs.length = ys.length
                · rw [if_pos hlen] at h
                  exact ihA xs ys theta theta2 hWF hAc h
                · rw [if_neg hlen] at h
                  simp at h
    · intro var x theta theta2 hWF hAc hvar h
      cases hl : lookup theta var with
      | some v =>
        simp only [unify_var] at h
        rw [hl] at h
        exact ihU v x theta theta2 hWF hAc h
      | none =>
        simp only [unify_var] at h
        rw [hl] at h
        cases hax : asVarName x with
        | some s =>
          rw [hax] at h
          simp only [] at h
          cases hls : lookup theta s with
          | some v =>
            rw [hls] at h
            exact ihU (.vstr var) v theta theta2 hWF hAc h
          | none =>
            rw [hls] at h
            exact ihB var x theta theta2 hWF hAc hvar hl h
        | none =>
          rw [hax] at h
          exact ihB var x theta theta2 hWF hAc hvar hl h
    · intro var x theta theta2 hWF hAc hvar hfresh h
      simp only [unify_bind] at h
      cases hoc : occurs_check (fuel + 1) var x theta with
      | none => rw [hoc] at h; cases h
      | some b =>
        rw [hoc] at h
        cases b with
        | true => simp at h
        | false =>
          injection h with h
          injection h with h
          subst h
          have hnocc : ¬ VarOccursIn theta var x := by
            intro hv
            have := ((occurs_check_correct (fuel + 1)).1 var x theta false hoc).mpr hv
            cases this
          exact ⟨acyclic_extend hWF hAc hfresh hvar hnocc, [(var, x)], rfl⟩
    · intro xs ys theta theta2 hWF hAc h
      cases xs with
      | nil =>
        simp only [unifyArgs] at h
        injection h with h
        injection h with h
        subst h
        exact ⟨⟨hWF, hAc⟩, [], by simp⟩
      | cons x xs =>
        cases ys with
        | nil =>
          simp only [unifyArgs] at h
          injection h with h
          injection h with h
          subst h
          exact ⟨⟨hWF, hAc⟩, [], by simp⟩
        | cons y ys =>
          simp only [unifyArgs] at h
          cases hu : unify fuel x y (some theta) with
          | none => rw [hu] at h; cases h
          | some r =>
            rw [hu] at h
            cases r with
            | none => simp at h
            | some th1 =>
              obtain ⟨⟨hW1, hA1⟩, d1, hd1⟩ := ihU x y theta th1 hWF hAc hu
              obtain ⟨⟨hW2, hA2⟩, d2, hd2⟩ := ihA xs ys th1 theta2 hW1 hA1 h
              exact ⟨⟨hW2, hA2⟩, d1 ++ d2, by rw [hd2, hd1, List.append_assoc]⟩

/-- C3: the occurs-check run before each new binding makes acyclicity
an invariant of unification — starting from a wellformed substitution
(unique variable-name keys) in which no variable transitively reaches
itself, every substitution returned by `unify`, and by `unify_var` on a
variable name, again has acyclic bindings (and stays wellformed). -/
theorem claimC3 :
    (∀ fuel x y theta theta2, WFS theta → AcyclicS theta →
      unify fuel x y (some theta) = some (some theta2) →
      WFS theta2 ∧ AcyclicS theta2) ∧
    (∀ fuel var x theta theta2, WFS theta → AcyclicS theta →
      matchesVarRe var = true →
      unify_var fuel var x theta = some (some theta2) →
      WFS theta2 ∧ AcyclicS theta2) :=
  ⟨fun fuel x y theta theta2 hW hA h =>
      ((unify_preserves fuel).1 x y theta theta2 hW hA h).1,
   fun fuel var x theta theta2 hW hA hv h =>
      ((unify_preserves fuel).2.1 var x theta theta2 hW hA hv h).1⟩

/-- Witness for C3 at a concrete input: unifying the variable `X` with
the constant `a` in the empty substitution yields the wellformed
acyclic substitution `{X: a}`. -/
theorem claimC3_witness :
    WFS [("X", Val.vstr "a")] ∧ AcyclicS [("X", Val.vstr "a")] :=
  claimC3.1 4 (.vstr "X") (.vstr "a") [] [("X", .vstr "a")]
    WFS_nil AcyclicS_nil (by rfl)

/-! ## Resolution chains and their termination -/

/-- Reachability along the binding chain that the
`while term in theta` loop of `apply_subst_to_term` follows. -/
inductive Reaches (theta : Subst) : Val → Val → Prop where
  | refl (t : Val) : Reaches theta t t
  | step (s : String) (v r : Val) : lookup theta s = some v →
      Reaches theta v r → Reaches theta (.vstr s) r

theorem reach_snoc {theta : Subst} {a : Val} {s : String} {u : Val}
    (h : Reaches theta a (.vstr s)) (hl : lookup theta s = some u) :
    Reaches theta a u := by
  have key : ∀ c b, Reaches theta c b → b = Val.vstr s → Reaches theta c u := by
    intro c b hb
    induction hb with
    | refl t =>
      intro he
      subst he
      exact Reaches.step s u u hl (Reaches.refl u)
    | step s' v r hl' _ ih =>
      intro he
      exact Reaches.step s' v u hl' (ih he)
  exact key _ _ h rfl

theorem reach_to_occurs {theta : Subst} {t : Val} {k : String}
    (hkeys : ∀ p ∈ theta, matchesVarRe p.1 = true)
    (h : Reaches theta t (.vstr k)) : VarOccursIn theta k t := by
  have key : ∀ a b, Reaches theta a b → b = Val.vstr k → VarOccursIn theta k a := by
    intro a b hb
    induction hb with
    | refl t =>
      intro he
      subst he
      exact VarOccursIn.base
    | step s v r hl _ ih =>
      intro he
      exact VarOccursIn.chain s v (hkeys _ (lookup_mem hl)) hl (ih he)
  exact key _ _ h rfl

/-- The chain from `t` ends at `r` after exactly `k` lookups. -/
inductive StepsTo (theta : Subst) : Val → Val → Nat → Prop where
  | stopStr (s : String) : lookup theta s = none →
      StepsTo theta (.vstr s) (.vstr s) 0
  | stopInt (n : Int) : StepsTo theta (.vint n) (.vint n) 0
  | step (s : String) (v r : Val) (k : Nat) : lookup theta s = some v →
      StepsTo theta v r k → StepsTo theta (.vstr s) r (k + 1)

theorem stepsTo_eval {theta : Subst} {t r : Val} {k : Nat}
    (h : StepsTo theta t r k) : ∀ fuel, k ≤ fuel → subst_chain fuel t theta = some r := by
  induction h with
  | stopStr s hl => intro fuel _; simp [subst_chain, hl]
  | stopInt n => intro fuel _; simp [subst_chain]
  | step s v r k hl _ ih =>
    intro fuel hk
    cases fuel with
    | zero => omega
    | succ fuel' =>
      rw [subst_chain.eq_1 _ _ _ _ hl]
      exact ih fuel' (by omega)

theorem stepsTo_reaches {theta : Subst} {t r : Val} {k : Nat}
    (h : StepsTo theta t r k) : Reaches theta t r := by
  induction h with
  | stopStr s hl => exact Reaches.refl _
  | stopInt n => exact Reaches.refl _
  | step s v r k hl _ ih => exact Reaches.step s v r hl ih

/-- Where a finished chain may end: at an unbound string or at an
integer (never at a list). -/
def chainEnd (theta : Subst) (r : Val) : Prop :=
  match r with
  | .vstr s => lookup theta s = none
  | .vint _ => True
  | .vlist _ => False

theorem stepsTo_end {theta : Subst} {t r : Val} {k : Nat}
    (h : StepsTo theta t r k) : chainEnd theta r := by
  induction h with
  | stopStr s hl => exact hl
  | stopInt n => trivial
  | step s v r k _ _ ih => exact ih

theorem stepsTo_det {theta : Subst} {t r r' : Val} {k k' : Nat}
    (h : StepsTo theta t r k) (h' : StepsTo theta t r' k') : r = r' ∧ k = k' := by
  induction h generalizing r' k' with
  | stopStr s hl =>
    cases h' with
    | stopStr => exact ⟨rfl, rfl⟩
    | step s' v _ _ hl' => rw [hl] at hl'; cases hl'
  | stopInt n =>
    cases h' with
    | stopInt => exact ⟨rfl, rfl⟩
  | step s v r k hl hst ih =>
    cases h' with
    | stopStr _ hl' => rw [hl] at hl'; cases hl'
    | step s' v' _ k2 hl' hst' =>
      rw [hl] at hl'
      injection hl' with hv
      subst hv
      obtain ⟨hr, hk⟩ := ih hst'
      exact ⟨hr, by omega⟩

/-- Pigeonhole argument: under the acyclicity invariant a resolution
chain can never revisit a key, so it ends within `|theta|` lookups. -/
theorem stepsTo_exists {theta : Subst} (hWF : WFS theta) (hAc : AcyclicS theta)
    (hAtom : AtomSub theta) :
    ∀ (n : Nat) (t : Val) (seen : List String), atomVal t = true → seen.Nodup →
      (∀ s ∈ seen, ∃ u, lookup theta s = some u ∧ Reaches theta u t) →
      (keys theta).length ≤ seen.length + n →
      ∃ r k, StepsTo theta t r k ∧ k ≤ n := by
  intro n
  induction n with
  | zero =>
    intro t seen hat hnd hseen hlen
    cases t with
    | vint m => exact ⟨.vint m, 0, StepsTo.stopInt m, le_refl 0⟩
    | vlist xs => simp [atomVal] at hat
    | vstr s =>
      cases hls : lookup theta s with
      | none => exact ⟨.vstr s, 0, StepsTo.stopStr s hls, le_refl 0⟩
      | some u =>
        exfalso
        have hsnot : s ∉ seen := by
          intro hmem
          rcases hseen s hmem with ⟨w, hw, hreach⟩
          exact hAc s w hw (reach_to_occurs hWF.2 hreach)
        have hsub : (s :: seen) ⊆ keys theta := by
          intro a ha
          rcases List.mem_cons.mp ha with rfl | ha2
          · exact mem_keys_of_lookup hls
          · rcases hseen a ha2 with ⟨w, hw, _⟩
            exact mem_keys_of_lookup hw
        have hnd2 : (s :: seen).Nodup := List.nodup_cons.mpr ⟨hsnot, hnd⟩
        have := (List.subperm_of_subset hnd2 hsub).length_le
        rw [List.length_cons] at this
        omega
  | succ n ih =>
    intro t seen hat hnd hseen hlen
    cases t with
    | vint m => exact ⟨.vint m, 0, StepsTo.stopInt m, by omega⟩
    | vlist xs => simp [atomVal] at hat
    | vstr s =>
      cases hls : lookup theta s with
      | none => exact ⟨.vstr s, 0, StepsTo.stopStr s hls, by omega⟩
      | some u =>
        have hsnot : s ∉ seen := by
          intro hmem
          rcases hseen s hmem with ⟨w, hw, hreach⟩
          exact hAc s w hw (reach_to_occurs hWF.2 hreach)
        have hstep : ∃ r k, StepsTo theta u r k ∧ k ≤ n := by
          apply ih u (s :: seen)
          · exact hAtom _ (lookup_mem hls)
          · exact List.nodup_cons.mpr ⟨hsnot, hnd⟩
          · intro a ha
            rcases List.mem_cons.mp ha with rfl | ha2
            · exact ⟨u, hls, Reaches.refl u⟩
            · rcases hseen a ha2 with ⟨w, hw, hreach⟩
              exact ⟨w, hw, reach_snoc hreach hls⟩
          · rw [List.length_cons]
            omega
        rcases hstep with ⟨r, k, hst, hk⟩
        exact ⟨r, k + 1, StepsTo.step s u r k hls hst, by omega⟩

theorem acyclicS_of_occurs {theta : Subst} (fuel : Nat)
    (h : ∀ p ∈ theta, occurs_check fuel p.1 p.2 theta = some false) :
    AcyclicS theta := by
  intro v t hl hocc
  have hp := h (v, t) (lookup_mem hl)
  have := ((occurs_check_correct fuel).1 v t theta false hp).mpr hocc
  cases this

/-- C4: on a wellformed substitution (variable-name keys, atom values)
whose binding graph is acyclic, `apply_subst_to_term` terminates — any
fuel of at least `|theta|` chain steps returns a result — the result is
a non-variable or a term absent from the substitution, and every
constant input is returned unchanged. -/
theorem claimC4 : ∀ (theta : Subst) (t : Val), WFS theta → AtomSub theta →
    AcyclicS theta →
    ∃ r, (∀ fuel, theta.length ≤ fuel → apply_subst_to_term fuel t theta = some r) ∧
      (is_variable r = false ∨ ∃ s, r = Val.vstr s ∧ lookup theta s = none) ∧
      (is_variable t = false → r = t) := by
  intro theta t hWF hAtom hAc
  cases hv : is_variable t with
  | false =>
    refine ⟨t, ?_, ?_, fun _ => rfl⟩
    · intro fuel _
      simp [apply_subst_to_term, hv]
    · cases t with
      | vstr s =>
        refine Or.inr ⟨s, rfl, ?_⟩
        cases hls : lookup theta s with
        | none => rfl
        | some u =>
          have := hWF.2 _ (lookup_mem hls)
          simp [is_variable, this] at hv
      | vint n => exact Or.inl rfl
      | vlist xs => exact Or.inl rfl
  | true =>
    have hat : atomVal t = true := by
      cases t with
      | vstr s => rfl
      | vint n => rfl
      | vlist xs => simp [is_variable] at hv
    rcases stepsTo_exists hWF hAc hAtom ((keys theta).length) t [] hat
        List.nodup_nil (by intro a ha; simp at ha) (by simp) with ⟨r, k, hst, hk⟩
    refine ⟨r, ?_, ?_, ?_⟩
    · intro fuel hfuel
      have hkeys : (keys theta).length = theta.length := List.length_map theta Prod.fst
      rw [apply_subst_to_term, if_pos hv]
      exact stepsTo_eval hst fuel (by omega)
    · have hend := stepsTo_end hst
      cases r with
      | vstr s => exact Or.inr ⟨s, rfl, hend⟩
      | vint n => exact Or.inl rfl
      | vlist xs => cases hend
    · intro hceq
      simp at hceq

/-- Witness for C4 at the concrete chained substitution
`{X: Y, Y: a}` and the term `X`. -/
theorem claimC4_witness :
    ∃ r, (∀ fuel, ([("X", Val.vstr "Y"), ("Y", Val.vstr "a")] : Subst).length ≤ fuel →
        apply_subst_to_term fuel (Val.vstr "X")
          [("X", Val.vstr "Y"), ("Y", Val.vstr "a")] = some r) ∧
      (is_variable r = false ∨
        ∃ s, r = Val.vstr s ∧
          lookup [("X", Val.vstr "Y"), ("Y", Val.vstr "a")] s = none) ∧
      (is_variable (Val.vstr "X") = false → r = Val.vstr "X") :=
  claimC4 [("X", Val.vstr "Y"), ("Y", Val.vstr "a")] (Val.vstr "X")
    ⟨by decide, by decide⟩ (by decide)
    (acyclicS_of_occurs 3 (by decide))

/-! ## Character classes of the regexes -/

theorem isVarHead_eq_false_of_digit {c : Char} (h : c.isDigit = true) :
    isVarHead c = false := by
  have h1 : c.isUpper = false := by
    simp [Char.isDigit, Char.isUpper, UInt32.le_def, BitVec.le_def] at *
    omega
  have h2 : (c == '_') = false := by
    by_cases he : c = '_'
    · subst he
      exact absurd h (by decide)
    · simp [he]
  simp [isVarHead, h1, h2]

theorem newline_ne_of_digit {c : Char} (h : c.isDigit = true) :
    (c == '\n') = false := by
  by_cases he : c = '\n'
  · subst he
    exact absurd h (by decide)
  · simp [he]

theorem dash_ne_of_digit {c : Char} (h : c.isDigit = true) : c ≠ '-' := by
  intro he
  subst he
  exact absurd h (by decide)

/-- A nonempty digits-only string is not a variable name. -/
theorem matchesVarRe_eq_false_of_digits {s : String}
    (hne : s.data ≠ []) (hall : s.data.all Char.isDigit = true) :
    matchesVarRe s = false := by
  have hvc : varCore s.data = false := by
    cases hd : s.data with
    | nil => exact absurd hd hne
    | cons c rest =>
      rw [hd] at hall
      simp only [List.all_cons, Bool.and_eq_true] at hall
      simp [varCore, isVarHead_eq_false_of_digit hall.1]
  rw [matchesVarRe, hvc]
  simp only [Bool.false_or]
  cases hl : s.data.getLast? with
  | none => simp
  | some cl =>
    have hclmem : cl ∈ s.data := by
      rcases List.mem_getLast?_eq_getLast (by rw [hl]; rfl) with ⟨hn, heq⟩
      rw [heq]
      exact List.getLast_mem hn
    have hcld : cl.isDigit = true := by
      rw [List.all_eq_true] at hall
      exact hall cl hclmem
    simp [newline_ne_of_digit hcld]

theorem isIntLiteral_of_digits {s : String} (hne : s.data ≠ [])
    (hall : s.data.all Char.isDigit = true) : isIntLiteral s = true := by
  cases hd : s.data with
  | nil => exact absurd hd hne
  | cons c rest =>
    rw [hd] at hall
    simp only [List.all_cons, Bool.and_eq_true] at hall
    simp [isIntLiteral, hd, dash_ne_of_digit hall.1, List.all_cons, hall.1, hall.2]

/-- C10: a textual integer literal and the corresponding integer are
distinct constants for unification — a nonempty digits-only string
never unifies with an integer under any substitution — while
`eval_builtin` coerces exactly such strings to integers before
comparing, so numeric coercion happens only inside the built-in
evaluator. -/
theorem claimC10 : ∀ (s : String) (n : Int) (theta : Subst) (fuel : Nat),
    s.data ≠ [] → s.data.all Char.isDigit = true →
    unify (fuel + 1) (.vstr s) (.vint n) (some theta) = some none ∧
    coerce (.vstr s) = .vint (strToInt s) ∧
    eval_builtin fuel "GreaterThan" [.vstr s, .vint n] [] =
      some (some (decide (n < strToInt s))) := by
  intro s n theta fuel hne hall
  have hm : matchesVarRe s = false := matchesVarRe_eq_false_of_digits hne hall
  have hi : isIntLiteral s = true := isIntLiteral_of_digits hne hall
  refine ⟨?_, ?_, ?_⟩
  · simp [unify, asVarName, hm]
  · simp [coerce, hi]
  · have h3 : apply_subst_to_args fuel [.vstr s, .vint n] [] = some [.vstr s, .vint n] := by
      simp [apply_subst_to_args, apply_subst_to_term, is_variable, hm]
    simp [eval_builtin, h3, is_variable, hm, coerce, hi]
    rfl

/-- Witness for C10 at `s = "5"`, `n = 5`: `unify("5", 5, {})` fails,
and the built-in comparison coerces `"5"` to the integer `5`. -/
theorem claimC10_witness :
    unify 1 (.vstr "5") (.vint 5) (some []) = some none ∧
    coerce (.vstr "5") = .vint (strToInt "5") ∧
    eval_builtin 0 "GreaterThan" [.vstr "5", .vint 5] [] =
      some (some (decide ((5 : Int) < strToInt "5"))) :=
  claimC10 "5" 5 [] 0 (by decide) (by decide)

/-- C2 counterexample: comparing the non-numeric string `"abc"`
against the integer `5` raises an uncaught `TypeError` (the comparison
operators sit outside the `try` block of `eval_builtin`), so the call
does not return a boolean — in particular it does not return false. -/
theorem claimC2_counterexample :
    eval_builtin 1 "GreaterThan" [.vstr "abc", .vint 5] [] = some none ∧
    eval_builtin 1 "GreaterThan" [.vstr "abc", .vint 5] [] ≠ some (some false) ∧
    eval_builtin 1 "GreaterThan" [.vstr "abc", .vint 5] [] ≠ some (some true) := by
  refine ⟨rfl, ?_, ?_⟩ <;> decide

/-- C2 as amended: `eval_builtin` returns false when a resolved
argument is an unbound variable, when fewer than two resolved
arguments exist (the guarded unpacking), and for unrecognized
predicate names; and it returns a boolean whenever the two coerced
arguments have comparable types (both integers or both strings).  But
a comparison between incomparable coerced types — such as a
non-numeric string against an integer — raises an uncaught
`TypeError` instead of returning false. -/
theorem claimC2_amended : ∀ (fuel : Nat) (pred : String) (args : List Val)
    (theta : Subst) (resolved : List Val),
    apply_subst_to_args fuel args theta = some resolved →
    (∀ a b rest, resolved = a :: b :: rest →
      (is_variable a || is_variable b) = true →
      eval_builtin fuel pred args theta = some (some false)) ∧
    (resolved.length < 2 → eval_builtin fuel pred args theta = some (some false)) ∧
    (∀ a b rest, resolved = a :: b :: rest →
      is_variable a = false → is_variable b = false →
      ((∃ i j, coerce a = Val.vint i ∧ coerce b = Val.vint j) ∨
       (∃ u v, coerce a = Val.vstr u ∧ coerce b = Val.vstr v)) →
      ∃ bl, eval_builtin fuel pred args theta = some (some bl)) ∧
    (∀ a b rest, resolved = a :: b :: rest →
      is_variable a = false → is_variable b = false →
      pred ≠ "GreaterThan" → pred ≠ "LessThan" →
      eval_builtin fuel pred args theta = some (some false)) := by
  intro fuel pred args theta resolved h
  refine ⟨?_, ?_, ?_, ?_⟩
  · intro a b rest hres hvar
    subst hres
    simp [eval_builtin, h, hvar]
  · intro hlen
    cases resolved with
    | nil => simp [eval_builtin, h]
    | cons a rest =>
      cases rest with
      | nil => simp [eval_builtin, h]
      | cons b r2 => simp at hlen; omega
  · intro a b rest hres hva hvb hcomp
    subst hres
    have hbase : eval_builtin fuel pred args theta =
        (if pred = "GreaterThan" then some (pyGt (coerce a) (coerce b))
         else if pred = "LessThan" then some (pyLt (coerce a) (coerce b))
         else some (some false)) := by
      simp [eval_builtin, h, hva, hvb]
    by_cases hg : pred = "GreaterThan"
    · rw [hbase, if_pos hg]
      rcases hcomp with ⟨i, j, hca, hcb⟩ | ⟨u, v, hca, hcb⟩
      · exact ⟨decide (j < i), by rw [hca, hcb]; rfl⟩
      · exact ⟨decide (v < u), by rw [hca, hcb]; rfl⟩
    · rw [hbase, if_neg hg]
      by_cases hl2 : pred = "LessThan"
      · rw [if_pos hl2]
        rcases hcomp with ⟨i, j, hca, hcb⟩ | ⟨u, v, hca, hcb⟩
        · exact ⟨decide (i < j), by rw [hca, hcb]; rfl⟩
        · exact ⟨decide (u < v), by rw [hca, hcb]; rfl⟩
      · rw [if_neg hl2]
        exact ⟨false, rfl⟩
  · intro a b rest hres hva hvb hg hl2
    subst hres
    simp [eval_builtin, h, hva, hvb, hg, hl2]

/-- Witness for the amended C2: `GreaterThan("29", 25)` resolves to a
numeric-string/integer pair whose coercions are both integers, so the
evaluator returns a boolean. -/
theorem claimC2_amended_witness :
    ∃ bl, eval_builtin 1 "GreaterThan" [.vstr "29", .vint 25] [] = some (some bl) :=
  (claimC2_amended 1 "GreaterThan" [.vstr "29", .vint 25] [] [.vstr "29", .vint 25]
      (by rfl)).2.2.1 (.vstr "29") (.vint 25) [] rfl (by decide) (by decide)
      (Or.inl ⟨29, 25, by decide, by decide⟩)

/-- C6: negation-as-failure — a negated literal yields exactly the
single, unmodified input substitution (binding nothing) when the
positive literal has no solution, and yields nothing when the positive
literal has at least one solution; hence, whenever both searches
finish, exactly one of `prove(L)` and `prove(not L)` has a solution. -/
theorem claimC6 : ∀ (fuel : Nat) (pred : String) (args : List Val)
    (facts : List KBFact) (rules : List Rule) (theta : Subst) (ctr : Nat)
    (sols : List Subst) (ctr2 : Nat),
    prove_literal fuel { pred := pred, args := args, negated := false }
      facts rules theta ctr = some (sols, ctr2) →
    ∃ negSols,
      prove_literal (fuel + 1) { pred := pred, args := args, negated := true }
        facts rules theta ctr = some (negSols, ctr2) ∧
      ((sols = [] ∧ negSols = [theta]) ∨ (sols ≠ [] ∧ negSols = [])) := by
  intro fuel pred args facts rules theta ctr sols ctr2 h
  by_cases hs : sols = []
  · refine ⟨[theta], ?_, Or.inl ⟨hs, rfl⟩⟩
    subst hs
    simp [prove_literal, h]
  · refine ⟨[], ?_, Or.inr ⟨hs, rfl⟩⟩
    have hse : sols.isEmpty = false := by
      cases sols with
      | nil => exact absurd rfl hs
      | cons a l => rfl
    simp [prove_literal, h, hse]

/-- Witness for C6: `Occupied(kitchen)` is not provable from the fact
`Occupied(living_room)`, so its negation yields exactly the unmodified
empty substitution. -/
theorem claimC6_witness :
    ∃ negSols,
      prove_literal 6 { pred := "Occupied", args := [.vstr "kitchen"], negated := true }
        [("Occupied", [.vstr "living_room"])] [] [] 0 = some (negSols, 0) ∧
      (([] : List Subst) = [] ∧ negSols = [([] : Subst)] ∨
        ([] : List Subst) ≠ [] ∧ negSols = []) :=
  claimC6 5 "Occupied" [.vstr "kitchen"] [("Occupied", [.vstr "living_room"])] [] [] 0
    [] 0 (by rfl)

/-- C7: dispatch priority — a non-negated literal whose predicate is a
recognized built-in never consults the facts or rules: its result does
not depend on them, and when the built-in evaluates to a boolean the
literal yields the input substitution unchanged exactly once on true
and nothing on false. -/
theorem claimC7 : ∀ (fuel : Nat) (pred : String) (args : List Val)
    (facts : List KBFact) (rules : List Rule) (theta : Subst) (ctr : Nat),
    (pred = "GreaterThan" ∨ pred = "LessThan") →
    prove_literal (fuel + 1) { pred := pred, args := args, negated := false }
        facts rules theta ctr =
      prove_literal (fuel + 1) { pred := pred, args := args, negated := false }
        [] [] theta ctr ∧
    (∀ b, eval_builtin fuel pred args theta = some (some b) →
      prove_literal (fuel + 1) { pred := pred, args := args, negated := false }
          facts rules theta ctr = some (if b then [theta] else [], ctr)) := by
  intro fuel pred args facts rules theta ctr hp
  constructor
  · simp [prove_literal, hp]
  · intro b hb
    cases b with
    | true => simp [prove_literal, hp, hb]
    | false => simp [prove_literal, hp, hb]

/-- Witness for C7: `GreaterThan(29, 25)` ignores a fact stored under
the same predicate name and succeeds as a built-in test. -/
theorem claimC7_witness :
    prove_literal 2 { pred := "GreaterThan", args := [.vint 29, .vint 25], negated := false }
        [("GreaterThan", [.vint 1, .vint 2])] [] [] 7 =
      prove_literal 2 { pred := "GreaterThan", args := [.vint 29, .vint 25], negated := false }
        [] [] [] 7 ∧
    (∀ b, eval_builtin 1 "GreaterThan" [.vint 29, .vint 25] [] = some (some b) →
      prove_literal 2 { pred := "GreaterThan", args := [.vint 29, .vint 25], negated := false }
          [("GreaterThan", [.vint 1, .vint 2])] [] [] 7 = some (if b then [([] : Subst)] else [], 7)) :=
  claimC7 1 "GreaterThan" [.vint 29, .vint 25] [("GreaterThan", [.vint 1, .vint 2])] [] [] 7
    (Or.inl rfl)

/-! ## Fuel monotonicity: a finished computation is stable under more fuel -/

theorem occurs_mono : ∀ fuel fuel2 : Nat, fuel ≤ fuel2 →
    (∀ var x theta b, occurs_check fuel var x theta = some b →
      occurs_check fuel2 var x theta = some b) ∧
    (∀ var xs theta b, occursList fuel var xs theta = some b →
      occursList fuel2 var xs theta = some b) := by
  intro fuel
  induction fuel with
  | zero =>
    intro fuel2 _
    constructor
    · intro var x theta b h; simp [occurs_check] at h
    · intro var xs theta b h; simp [occursList] at h
  | succ fuel ih =>
    intro fuel2 hle
    cases fuel2 with
    | zero => omega
    | succ f2 =>
      obtain ⟨ih1, ih2⟩ := ih f2 (by omega)
      constructor
      · intro var x theta b h
        cases x with
        | vstr s =>
          simp only [occurs_check] at h ⊢
          by_cases hx : Val.vstr s = Val.vstr var
          · rw [if_pos hx] at h ⊢; exact h
          · rw [if_neg hx] at h ⊢
            by_cases hm : matchesVarRe s
            · rw [if_pos hm] at h ⊢
              cases hlook : lookup theta s with
              | some v =>
                rw [hlook] at h
                exact ih1 var v theta b h
              | none =>
                rw [hlook] at h
                exact h
            · rw [if_neg hm] at h ⊢; exact h
        | vint n =>
          simp only [occurs_check] at h ⊢
          exact h
        | vlist xs =>
          simp only [occurs_check] at h ⊢
          rw [if_neg (by simp)] at h ⊢
          exact ih2 var xs theta b h
      · intro var xs theta b h
        cases xs with
        | nil => simpa [occursList] using h
        | cons x rest =>
          simp only [occursList] at h ⊢
          cases hc : occurs_check fuel var x theta with
          | none =>
            rw [hc] at h
            exact Option.noConfusion h
          | some bx =>
            rw [hc] at h
            rw [ih1 var x theta bx hc]
            cases bx with
            | true => exact h
            | false => exact ih2 var rest theta b h

theorem unify_mono : ∀ fuel fuel2 : Nat, fuel ≤ fuel2 →
    (∀ x y thetaOpt r, unify fuel x y thetaOpt = some r →
      unify fuel2 x y thetaOpt = some r) ∧
    (∀ var x theta r, unify_var fuel var x theta = some r →
      unify_var fuel2 var x theta = some r) ∧
    (∀ var x theta r, unify_bind fuel var x theta = some r →
      unify_bind fuel2 var x theta = some r) ∧
    (∀ xs ys theta r, unifyArgs fuel xs ys theta = some r →
      unifyArgs fuel2 xs ys theta = some r) := by
  intro fuel
  induction fuel with
  | zero =>
    intro fuel2 _
    refine ⟨?_, ?_, ?_, ?_⟩
    · intro x y thetaOpt r h; simp [unify] at h
    · intro var x theta r h; simp [unify_var] at h
    · intro var x theta r h; simp [unify_bind] at h
    · intro xs ys theta r h; simp [unifyArgs] at h
  | succ fuel ih =>
    intro fuel2 hle
    cases fuel2 with
    | zero => omega
    | succ f2 =>
      obtain ⟨ihU, ihV, ihB, ihA⟩ := ih f2 (by omega)
      refine ⟨?_, ?_, ?_, ?_⟩
      · intro x y thetaOpt r h
        simp only [unify] at h ⊢
        cases thetaOpt with
        | none => exact h
        | some theta =>
          simp only [] at h ⊢
          by_cases hxy : x = y
          · rw [if_pos hxy] at h ⊢; exact h
          · rw [if_neg hxy] at h ⊢
            cases hax : asVarName x with
            | some sx =>
              rw [hax] at h
              exact ihV sx y theta r h
            | none =>
              rw [hax] at h
              simp only [] at h
              cases hay : asVarName y with
              | some sy =>
                rw [hay] at h
                exact ihV sy x theta r h
              | none =>
                rw [hay] at h
                simp only [] at h
                cases x with
                | vstr s => cases y <;> simp_all
                | vint n => cases y <;> simp_all
                | vlist xs =>
                  cases y with
                  | vstr t => simp_all
                  | vint m => simp_all
                  | vlist ys =>
                    simp only [] at h ⊢
                    by_cases hlen : xs.length = ys.length
                    · rw [if_pos hlen] at h ⊢
                      exact ihA xs ys theta r h
                    · rw [if_neg hlen] at h ⊢
                      exact h
      · intro var x theta r h
        simp only [unify_var] at h ⊢
        cases hl : lookup theta var with
        | some v =>
          rw [hl] at h
          exact ihU v x (some theta) r h
        | none =>
          rw [hl] at h
          simp only [] at h ⊢
          cases hax : asVarName x with
          | some s =>
            rw [hax] at h
            simp only [] at h ⊢
            cases hls : lookup theta s with
            | some v =>
              rw [hls] at h
              exact ihU (.vstr var) v (some theta) r h
            | none =>
              rw [hls] at h
              exact ihB var x theta r h
          | none =>
            rw [hax] at h
            exact ihB var x theta r h
      · intro var x theta r h
        simp only [unify_bind] at h ⊢
        cases hoc : occurs_check (fuel + 1) var x theta with
        | none =>
          rw [hoc] at h
          exact Option.noConfusion h
        | some b =>
          rw [hoc] at h
          rw [(occurs_mono (fuel + 1) (f2 + 1) (by omega)).1 var x theta b hoc]
          exact h
      · intro xs ys theta r h
        cases xs with
        | nil => simpa [unifyArgs] using h
        | cons x xs =>
          cases ys with
          | nil => simpa [unifyArgs] using h
          | cons y ys =>
            simp only [unifyArgs] at h ⊢
            cases hu : unify fuel x y (some theta) with
            | none =>
              rw [hu] at h
              exact Option.noConfusion h
            | some r1 =>
              rw [hu] at h
              rw [ihU x y (some theta) r1 hu]
              cases r1 with
              | none => exact h
              | some th1 => exact ihA xs ys th1 r h

/-- The fact loop of `prove_literal` yields, in stored fact order, one
extended substitution per fact whose arguments unify — an
order-preserving filter over the matching facts. -/
theorem proveFacts_filterMap : ∀ fuel big : Nat, fuel ≤ big →
    ∀ (args : List Val) (fs : List KBFact) (theta : Subst) (sols : List Subst),
    proveFacts fuel args fs theta = some sols →
    sols = fs.filterMap (fun f =>
      match unify big (.vlist args) (.vlist f.2) (some theta) with
      | some (some theta2) => some theta2
      | _ => none) := by
  intro fuel
  induction fuel with
  | zero => intro big _ args fs theta sols h; simp [proveFacts] at h
  | succ fuel ih =>
    intro big hbig args fs theta sols h
    cases fs with
    | nil =>
      simp only [proveFacts] at h
      injection h with h
      subst h
      simp
    | cons f fs =>
      simp only [proveFacts] at h
      cases hu : unify fuel (.vlist args) (.vlist f.2) (some theta) with
      | none =>
        rw [hu] at h
        exact Option.noConfusion h
      | some r =>
        rw [hu] at h
        have hu2 : unify big (.vlist args) (.vlist f.2) (some theta) = some r :=
          (unify_mono fuel big (by omega)).1 _ _ _ _ hu
        cases r with
        | none =>
          rw [List.filterMap_cons]
          simp only [hu2]
          exact ih big (by omega) args fs theta sols h
        | some th1 =>
          cases hrest : proveFacts fuel args fs theta with
          | none =>
            rw [hrest] at h
            exact Option.noConfusion h
          | some rest =>
            rw [hrest] at h
            injection h with h
            subst h
            rw [List.filterMap_cons]
            simp only [hu2]
            rw [ih big (by omega) args fs theta rest hrest]

/-- C8: discovery order — for a non-built-in positive query the prover
returns exactly the fact-derived solutions (one per matching fact, in
stored order) followed by the rule-derived solutions (produced by the
rule loop in declaration order, depth-first over conjunctive bodies),
and `ask` normalises this list without reordering it. -/
theorem claimC8 : ∀ (fuel : Nat) (pred : String) (args : List Val)
    (facts : List KBFact) (rules : List Rule) (ctr : Nat)
    (factRes ruleRes : List Subst) (ctr2 : Nat),
    pred ≠ "GreaterThan" → pred ≠ "LessThan" →
    proveFacts fuel args (facts_for_pred facts pred) [] = some factRes →
    proveRules fuel args (rules_for_head rules pred) facts rules [] ctr =
      some (ruleRes, ctr2) →
    prove_literal (fuel + 1) { pred := pred, args := args, negated := false }
        facts rules [] ctr = some (factRes ++ ruleRes, ctr2) ∧
    factRes = (facts_for_pred facts pred).filterMap (fun f =>
      match unify (fuel + 1) (.vlist args) (.vlist f.2) (some ([] : Subst)) with
      | some (some theta2) => some theta2
      | _ => none) ∧
    ask (fuel + 1) { pred := pred, args := args, negated := false } facts rules ctr =
      normalizeAll (fuel + 1) (factRes ++ ruleRes) := by
  intro fuel pred args facts rules ctr factRes ruleRes ctr2 hg hl2 hfacts hrules
  have hPL : prove_literal (fuel + 1) { pred := pred, args := args, negated := false }
      facts rules [] ctr = some (factRes ++ ruleRes, ctr2) := by
    simp [prove_literal, hg, hl2, hfacts, hrules]
  refine ⟨hPL, ?_, ?_⟩
  · exact proveFacts_filterMap fuel (fuel + 1) (by omega) args _ [] factRes hfacts
  · simp [ask, hPL]

/-! ## The demo knowledge base of the spec's end-to-end scenario -/

def demoFacts : List KBFact :=
  [("Occupied", [.vstr "living_room"]), ("Temperature", [.vstr "living_room", .vint 29])]

def demoRules : List Rule :=
  [{ head := ("NeedsCooling", [.vstr "Room"]),
     body := [{ pred := "Occupied", args := [.vstr "Room"], negated := false },
              { pred := "Temperature", args := [.vstr "Room", .vstr "T"], negated := false },
              { pred := "GreaterThan", args := [.vstr "T", .vint 25], negated := false }] }]

def demoQuery : Literal := { pred := "NeedsCooling", args := [.vstr "X"], negated := false }

/-- The one solution the engine actually returns for the demo query,
rename counter starting at 0. -/
def demoSolution : Subst :=
  [("X", .vstr "living_room"), ("Room__0", .vstr "living_room"), ("T__0", .vint 29)]

/-- Witness for C8 on the demo KB: no fact matches `NeedsCooling`, the
single rule contributes one solution, and `ask` normalises that
concatenation in order. -/
theorem claimC8_witness :
    prove_literal 16 demoQuery demoFacts demoRules [] 0 =
      some (([] : List Subst) ++
        [[("X", .vstr "Room__0"), ("Room__0", .vstr "living_room"), ("T__0", .vint 29)]], 1) ∧
    ([] : List Subst) = (facts_for_pred demoFacts "NeedsCooling").filterMap (fun f =>
      match unify 16 (.vlist [.vstr "X"]) (.vlist f.2) (some ([] : Subst)) with
      | some (some theta2) => some theta2
      | _ => none) ∧
    ask 16 demoQuery demoFacts demoRules 0 =
      normalizeAll 16 (([] : List Subst) ++
        [[("X", .vstr "Room__0"), ("Room__0", .vstr "living_room"), ("T__0", .vint 29)]]) :=
  claimC8 15 "NeedsCooling" [.vstr "X"] demoFacts demoRules 0 []
    [[("X", .vstr "Room__0"), ("Room__0", .vstr "living_room"), ("T__0", .vint 29)]] 1
    (by decide) (by decide) (by rfl) (by rfl)

/-- A finishing `subst_chain` always stops at an integer or at a string
that is not a key of the substitution: its result is already fully
dereferenced. -/
theorem subst_chain_end {th : Subst} :
    ∀ g t r, subst_chain g t th = some r →
      (∃ n, r = Val.vint n) ∨ (∃ s, r = Val.vstr s ∧ lookup th s = none) := by
  intro g
  induction g with
  | zero =>
    intro t r h
    cases t with
    | vint n =>
      simp only [subst_chain] at h
      exact Or.inl ⟨n, (Option.some.inj h).symm⟩
    | vstr s =>
      cases hl : lookup th s with
      | some v =>
        rw [subst_chain.eq_2 _ _ _ hl] at h
        cases h
      | none =>
        rw [subst_chain.eq_3 _ _ _ hl] at h
        exact Or.inr ⟨s, (Option.some.inj h).symm, hl⟩
    | vlist xs => simp [subst_chain] at h
  | succ g2 ih =>
    intro t r h
    cases t with
    | vint n =>
      simp only [subst_chain] at h
      exact Or.inl ⟨n, (Option.some.inj h).symm⟩
    | vstr s =>
      cases hl : lookup th s with
      | some v =>
        rw [subst_chain.eq_1 _ _ _ _ hl] at h
        exact ih v r h
      | none =>
        rw [subst_chain.eq_3 _ _ _ hl] at h
        exact Or.inr ⟨s, (Option.some.inj h).symm, hl⟩
    | vlist xs => simp [subst_chain] at h

/-- Whatever `apply_subst_to_term` returns is a fixed point of
resolution: resolving it again, at any fuel, gives it back
unchanged. -/
theorem apply_fixed {th : Subst} {f : Nat} {t r : Val}
    (h : apply_subst_to_term f t th = some r) :
    ∀ f2, apply_subst_to_term f2 r th = some r := by
  intro f2
  by_cases hv : is_variable t
  · simp only [apply_subst_to_term, if_pos hv] at h
    rcases subst_chain_end f t r h with ⟨n, rfl⟩ | ⟨s, rfl, hl⟩
    · simp [apply_subst_to_term, is_variable]
    · by_cases hvs : is_variable (Val.vstr s)
      · simp only [apply_subst_to_term, if_pos hvs]
        exact subst_chain.eq_3 _ _ _ hl
      · simp only [apply_subst_to_term, if_neg hvs]
  · simp only [apply_subst_to_term, if_neg hv] at h
    obtain rfl := Option.some.inj h
    simp only [apply_subst_to_term, if_neg hv]

/-- The entry loop of `ask`'s normalisation: it succeeds exactly by
keeping every key and dereferencing every value through the full
substitution, in place. -/
theorem normalizeEntries_spec {f : Nat} {th : Subst} :
    ∀ entries out, normalizeEntries f th entries = some out →
      List.Forall₂ (fun (q p : String × Val) =>
        p.1 = q.1 ∧ apply_subst_to_term f q.2 th = some p.2) entries out := by
  intro entries
  induction entries with
  | nil =>
    intro out h
    simp only [normalizeEntries] at h
    obtain rfl := Option.some.inj h
    exact List.Forall₂.nil
  | cons e rest ih =>
    intro out h
    simp only [normalizeEntries] at h
    cases ha : apply_subst_to_term f e.2 th with
    | none =>
      rw [ha] at h
      simp at h
    | some r =>
      rw [ha] at h
      cases hn : normalizeEntries f th rest with
      | none =>
        rw [hn] at h
        simp at h
      | some rs =>
        rw [hn] at h
        simp only [] at h
        obtain rfl := Option.some.inj h
        exact List.Forall₂.cons ⟨rfl, ha⟩ (ih rs hn)

/-- The solution loop of `ask`: each returned solution is the
normalisation of the corresponding prover substitution, in discovery
order. -/
theorem normalizeAll_spec {f : Nat} :
    ∀ sols out, normalizeAll f sols = some out →
      List.Forall₂ (fun theta sol => normalizeSubst f theta = some sol) sols out := by
  intro sols
  induction sols with
  | nil =>
    intro out h
    simp only [normalizeAll] at h
    obtain rfl := Option.some.inj h
    exact List.Forall₂.nil
  | cons theta rest ih =>
    intro out h
    simp only [normalizeAll] at h
    cases ha : normalizeSubst f theta with
    | none =>
      rw [ha] at h
      simp at h
    | some sol =>
      rw [ha] at h
      cases hn : normalizeAll f rest with
      | none =>
        rw [hn] at h
        simp at h
      | some outs =>
        rw [hn] at h
        simp only [] at h
        obtain rfl := Option.some.inj h
        exact List.Forall₂.cons ha (ih outs hn)

/-- Elementwise consequences of the entry-loop characterisation: the
key list is preserved exactly, and every output binding dereferences a
corresponding input binding. -/
theorem forall2_entries {f : Nat} {th : Subst} :
    ∀ {entries out : Subst},
      List.Forall₂ (fun (q p : String × Val) =>
        p.1 = q.1 ∧ apply_subst_to_term f q.2 th = some p.2) entries out →
      keys out = keys entries ∧
      ∀ p ∈ out, ∃ q ∈ entries, p.1 = q.1 ∧
        apply_subst_to_term f q.2 th = some p.2 := by
  intro entries out h
  induction h with
  | nil => exact ⟨rfl, by simp⟩
  | cons hR hrest ih =>
    constructor
    · simp only [keys, List.map_cons]
      rw [hR.1]
      exact congrArg (List.cons _) ih.1
    · intro p hp
      rcases List.mem_cons.mp hp with rfl | hp2
      · exact ⟨_, List.mem_cons_self _ _, hR.1, hR.2⟩
      · obtain ⟨q, hq, hq1, hq2⟩ := ih.2 p hp2
        exact ⟨q, List.mem_cons_of_mem _ hq, hq1, hq2⟩

/-- C1 counterexample: on the spec's own demo KB the query
`NeedsCooling(X)` yields one solution, but that solution is not
restricted to the query variable `X` — it also carries the renamed
rule variables `Room__0` and `T__0`, so its key set is not `{X}`. -/
theorem claimC1_counterexample :
    ask 16 demoQuery demoFacts demoRules 0 = some [demoSolution] ∧
    demoSolution.map Prod.fst = ["X", "Room__0", "T__0"] ∧
    ¬ demoSolution.map Prod.fst = ["X"] :=
  ⟨by rfl, by rfl, by decide⟩

/-- C1 as amended: for every query, knowledge base and counter state,
each solution `ask` returns is the normalisation of one prover
substitution, with the same key list — the domain is every variable
bound during the proof (query variables plus renamed rule variables),
not restricted to the query's variables — each stored value being the
full dereference of the corresponding prover binding, already fully
resolved (resolving it again at any fuel returns it unchanged); and on
the demo KB the query `NeedsCooling(X)` yields exactly one solution,
which maps `X` to `living_room` and additionally carries the renamed
rule variables `Room__0` and `T__0`. -/
theorem claimC1_amended :
    (∀ (fuel : Nat) (query : Literal) (facts : List KBFact) (rules : List Rule)
        (ctr : Nat) (sols : List Subst),
      ask fuel query facts rules ctr = some sols →
      ∃ (thetas : List Subst) (ctr2 : Nat),
        prove_literal fuel query facts rules [] ctr = some (thetas, ctr2) ∧
        List.Forall₂ (fun theta sol =>
          keys sol = keys theta ∧
          ∀ p ∈ sol, ∃ q ∈ theta, p.1 = q.1 ∧
            apply_subst_to_term fuel q.2 theta = some p.2 ∧
            ∀ f2, apply_subst_to_term f2 p.2 theta = some p.2) thetas sols) ∧
    ask 16 demoQuery demoFacts demoRules 0 = some [demoSolution] ∧
    lookup demoSolution "X" = some (.vstr "living_room") ∧
    demoSolution.map Prod.fst = ["X", "Room__0", "T__0"] ∧
    (∀ p ∈ demoSolution, apply_subst_to_term 16 p.2 demoSolution = some p.2) := by
  refine ⟨?_, by rfl, by rfl, by rfl, by decide⟩
  intro fuel query facts rules ctr sols hask
  simp only [ask] at hask
  cases hp : prove_literal fuel query facts rules [] ctr with
  | none =>
    rw [hp] at hask
    simp at hask
  | some pr =>
    obtain ⟨thetas, ctr2⟩ := pr
    rw [hp] at hask
    simp only [] at hask
    refine ⟨thetas, ctr2, rfl, ?_⟩
    refine List.Forall₂.imp ?_ (normalizeAll_spec thetas sols hask)
    intro theta sol hns
    obtain ⟨hkeys, hmem⟩ := forall2_entries (normalizeEntries_spec theta sol hns)
    refine ⟨hkeys, ?_⟩
    intro p hp2
    obtain ⟨q, hq, hq1, hq2⟩ := hmem p hp2
    exact ⟨q, hq, hq1, hq2, apply_fixed hq2⟩

/-- Witness for the amended C1 at the demo input: applying the general
statement to the demo KB, its query and the solution list `ask`
actually computes there. -/
theorem claimC1_amended_witness :
    ∃ (thetas : List Subst) (ctr2 : Nat),
      prove_literal 16 demoQuery demoFacts demoRules [] 0 = some (thetas, ctr2) ∧
      List.Forall₂ (fun theta sol =>
        keys sol = keys theta ∧
        ∀ p ∈ sol, ∃ q ∈ theta, p.1 = q.1 ∧
          apply_subst_to_term 16 q.2 theta = some p.2 ∧
          ∀ f2, apply_subst_to_term f2 p.2 theta = some p.2) thetas [demoSolution] :=
  claimC1_amended.1 16 demoQuery demoFacts demoRules 0 [demoSolution] (by rfl)

/-! ## `compose` and sequential application -/

def cexTheta1 : Subst := [("X", .vstr "Y"), ("Y", .vstr "Z")]

def cexTheta2 : Subst := [("Y", .vstr "q")]

/-- C9 counterexample: with `theta1 = {X: Y, Y: Z}` and
`theta2 = {Y: q}`, resolving `X` through `compose(theta1, theta2)`
gives `q`, while resolving `X` through `theta1` gives `Z` and then
resolving `Z` through `theta2` still gives `Z` — the sequential
application identity fails. -/
theorem claimC9_counterexample :
    apply_subst_to_term 3 (.vstr "X") (compose cexTheta1 cexTheta2) = some (.vstr "q") ∧
    apply_subst_to_term 3 (.vstr "X") cexTheta1 = some (.vstr "Z") ∧
    apply_subst_to_term 3 (.vstr "Z") cexTheta2 = some (.vstr "Z") ∧
    (Val.vstr "q" : Val) ≠ .vstr "Z" :=
  ⟨by rfl, by rfl, by rfl, by decide⟩

/-- The single-step value update `compose` applies to each binding of
its first argument: a variable value bound in `theta2` is replaced by
`theta2`'s immediate binding, everything else is kept. -/
def compose_value_update (theta2 : Subst) (val : Val) : Val :=
  match val with
  | .vstr s =>
    if matchesVarRe s then
      match lookup theta2 s with
      | some w => w
      | none => val
    else val
  | _ => val

theorem lookup_map_update (theta2 : Subst) : ∀ (l : Subst) (v : String),
    lookup (l.map (fun p =>
      match p.2 with
      | .vstr s =>
        if matchesVarRe s then
          match lookup theta2 s with
          | some w => (p.1, w)
          | none => p
        else p
      | _ => p)) v = (lookup l v).map (compose_value_update theta2) := by
  intro l v
  induction l with
  | nil => simp [lookup]
  | cons p rest ih =>
    obtain ⟨k, val⟩ := p
    rw [List.map_cons]
    cases val with
    | vint n =>
      simp only []
      by_cases hk : k = v
      · subst hk
        simp [lookup, compose_value_update]
      · simp [lookup, hk, ih]
    | vlist xs =>
      simp only []
      by_cases hk : k = v
      · subst hk
        simp [lookup, compose_value_update]
      · simp [lookup, hk, ih]
    | vstr s =>
      simp only []
      by_cases hms : matchesVarRe s
      · rw [if_pos hms]
        cases hl2 : lookup theta2 s with
        | some w =>
          by_cases hk : k = v
          · subst hk
            simp [lookup, compose_value_update, hms, hl2]
          · simp [lookup, hk, ih]
        | none =>
          by_cases hk : k = v
          · subst hk
            simp [lookup, compose_value_update, hms, hl2]
          · simp [lookup, hk, ih]
      · rw [if_neg hms]
        by_cases hk : k = v
        · subst hk
          simp [lookup, compose_value_update, hms]
        · simp [lookup, hk, ih]

theorem lookup_filter_fresh (theta1 : Subst) : ∀ (l : Subst) (v : String),
    lookup (l.filter (fun q => (lookup theta1 q.1).isNone)) v =
      (match lookup theta1 v with
       | some _ => none
       | none => lookup l v) := by
  intro l v
  induction l with
  | nil => cases hl1 : lookup theta1 v <;> simp [lookup]
  | cons q rest ih =>
    obtain ⟨k, val⟩ := q
    rw [List.filter_cons]
    simp only []
    by_cases hk : k = v
    · subst hk
      cases hl1 : lookup theta1 k with
      | some w =>
        simp only [Option.isNone_some, Bool.false_eq_true, if_false]
        rw [ih, hl1]
      | none =>
        simp only [Option.isNone_none, if_true]
        simp [lookup, hl1]
    · cases hfk : (lookup theta1 k).isNone with
      | true =>
        simp only [if_true]
        simp only [lookup, if_neg hk]
        exact ih
      | false =>
        simp only [Bool.false_eq_true, if_false]
        rw [ih]
        cases hl1v : lookup theta1 v with
        | some w => rfl
        | none => simp only [lookup, if_neg hk]

/-- The lookup characterization of `compose`: each binding of `theta1`
is updated one step through `theta2`; keys of `theta2` absent from
`theta1` are looked up in `theta2`. -/
theorem compose_lookup (theta1 theta2 : Subst) (v : String) :
    lookup (compose theta1 theta2) v =
      (match lookup theta1 v with
       | some val => some (compose_value_update theta2 val)
       | none => lookup theta2 v) := by
  simp only [compose]
  rw [lookup_append, lookup_map_update, lookup_filter_fresh]
  cases hl1 : lookup theta1 v with
  | some val => rfl
  | none => rfl

theorem subst_chain_det : ∀ (f : Nat) (t : Val) (th : Subst) (r : Val),
    subst_chain f t th = some r →
    ∀ (f2 : Nat) (r2 : Val), subst_chain f2 t th = some r2 → r = r2 := by
  intro f
  induction f with
  | zero =>
    intro t th r h f2 r2 h2
    cases t with
    | vstr s =>
      cases hl : lookup th s with
      | some v => rw [subst_chain.eq_2 _ _ _ hl] at h; cases h
      | none =>
        rw [subst_chain.eq_3 _ _ _ hl] at h h2
        injection h with h
        injection h2 with h2
        rw [← h, ← h2]
    | vint n =>
      simp [subst_chain] at h h2
      rw [← h, ← h2]
    | vlist xs => simp [subst_chain] at h
  | succ f ih =>
    intro t th r h f2 r2 h2
    cases t with
    | vstr s =>
      cases hl : lookup th s with
      | some v =>
        rw [subst_chain.eq_1 _ _ _ _ hl] at h
        cases f2 with
        | zero => rw [subst_chain.eq_2 _ _ _ hl] at h2; cases h2
        | succ f2m =>
          rw [subst_chain.eq_1 _ _ _ _ hl] at h2
          exact ih v th r h f2m r2 h2
      | none =>
        rw [subst_chain.eq_3 _ _ _ hl] at h h2
        injection h with h
        injection h2 with h2
        rw [← h, ← h2]
    | vint n =>
      simp [subst_chain] at h h2
      rw [← h, ← h2]
    | vlist xs => simp [subst_chain] at h

theorem apply_subst_det {f f2 : Nat} {t : Val} {th : Subst} {r r2 : Val}
    (h : apply_subst_to_term f t th = some r)
    (h2 : apply_subst_to_term f2 t th = some r2) : r = r2 := by
  by_cases hv : is_variable t
  · simp only [apply_subst_to_term, if_pos hv] at h h2
    exact subst_chain_det f t th r h f2 r2 h2
  · simp only [apply_subst_to_term, if_neg hv] at h h2
    injection h with h
    injection h2 with h2
    rw [← h, ← h2]

/-- A chain that runs entirely inside `theta2` and away from the keys
of `theta1` is also a chain of `compose theta1 theta2`. -/
theorem stepsTo_compose_of_theta2 {theta1 theta2 : Subst}
    (havoid : ∀ p ∈ theta2, ∀ s, p.2 = Val.vstr s → lookup theta1 s = none) :
    ∀ u r k, StepsTo theta2 u r k →
      (∀ w, u = Val.vstr w → lookup theta1 w = none) →
      StepsTo (compose theta1 theta2) u r k := by
  intro u r k h
  induction h with
  | stopStr s hl =>
    intro hcond
    have h1 : lookup theta1 s = none := hcond s rfl
    apply StepsTo.stopStr
    rw [compose_lookup, h1]
    exact hl
  | stopInt n =>
    intro _
    exact StepsTo.stopInt n
  | step s v r k hl hst ih =>
    intro hcond
    have h1 : lookup theta1 s = none := hcond s rfl
    refine StepsTo.step s v r k ?_ ?_
    · rw [compose_lookup, h1]
      exact hl
    · exact ih (fun w hw => havoid _ (lookup_mem hl) w hw)

/-- Under flatness of `theta1` and disjointness of `theta2`'s values
from `theta1`'s keys, every term has a resolution through the composed
substitution that coincides with resolving first through `theta1` and
then through `theta2`. -/
theorem compose_seq_exists {theta1 theta2 : Subst}
    (hW2 : WFS theta2) (hA1 : AtomSub theta1) (hA2 : AtomSub theta2)
    (hAc2 : AcyclicS theta2)
    (hflat : ∀ p ∈ theta1, ∀ s, p.2 = Val.vstr s → lookup theta1 s = none)
    (havoid : ∀ p ∈ theta2, ∀ s, p.2 = Val.vstr s → lookup theta1 s = none) :
    ∀ t : Val, ∃ m r,
      (∃ f, apply_subst_to_term f t (compose theta1 theta2) = some r) ∧
      (∃ f, apply_subst_to_term f t theta1 = some m) ∧
      (∃ f, apply_subst_to_term f m theta2 = some r) := by
  intro t
  by_cases hv : is_variable t = true
  case neg =>
    have hvf : is_variable t = false := by
      cases hb : is_variable t
      · rfl
      · exact absurd hb hv
    exact ⟨t, t, ⟨0, by simp [apply_subst_to_term, hvf]⟩,
      ⟨0, by simp [apply_subst_to_term, hvf]⟩,
      ⟨0, by simp [apply_subst_to_term, hvf]⟩⟩
  case pos =>
    obtain ⟨s, rfl, hms⟩ : ∃ s, t = Val.vstr s ∧ matchesVarRe s = true := by
      cases t with
      | vstr s => exact ⟨s, rfl, hv⟩
      | vint n => simp [is_variable] at hv
      | vlist xs => simp [is_variable] at hv
    cases hl1 : lookup theta1 s with
    | some val =>
      have hval : atomVal val = true := hA1 _ (lookup_mem hl1)
      have hm1 : ∃ f, apply_subst_to_term f (Val.vstr s) theta1 = some val := by
        refine ⟨1, ?_⟩
        simp only [apply_subst_to_term, is_variable, hms, if_true]
        rw [subst_chain.eq_1 _ _ _ _ hl1]
        cases val with
        | vstr w => exact subst_chain.eq_3 _ _ _ (hflat _ (lookup_mem hl1) w rfl)
        | vint n => rfl
        | vlist xs => simp [atomVal] at hval
      cases val with
      | vlist xs => simp [atomVal] at hval
      | vint n =>
        refine ⟨Val.vint n, Val.vint n, ⟨1, ?_⟩, hm1, ⟨0, ?_⟩⟩
        · simp only [apply_subst_to_term, is_variable, hms, if_true]
          have hc : lookup (compose theta1 theta2) s = some (Val.vint n) := by
            rw [compose_lookup, hl1]
            rfl
          rw [subst_chain.eq_1 _ _ _ _ hc]
          rfl
        · simp [apply_subst_to_term, is_variable]
      | vstr w =>
        have hw1 : lookup theta1 w = none := hflat _ (lookup_mem hl1) w rfl
        by_cases hmw : matchesVarRe w = true
        · obtain ⟨r, k, hst, _⟩ := stepsTo_exists hW2 hAc2 hA2 ((keys theta2).length)
            (Val.vstr w) [] rfl List.nodup_nil (by intro a ha; simp at ha) (by simp)
          refine ⟨Val.vstr w, r, ?_, hm1, ⟨k, ?_⟩⟩
          · cases hl2w : lookup theta2 w with
            | some w2 =>
              cases hst with
              | stopStr _ hnone => rw [hl2w] at hnone; cases hnone
              | step _ v r0 k0 hl2 hst2 =>
                rw [hl2w] at hl2
                injection hl2 with hv2
                subst hv2
                have htr := stepsTo_compose_of_theta2 havoid _ _ _ hst2
                  (fun w2n hw2n => havoid _ (lookup_mem hl2w) w2n hw2n)
                have hc : lookup (compose theta1 theta2) s = some w2 := by
                  rw [compose_lookup, hl1]
                  simp [compose_value_update, hmw, hl2w]
                refine ⟨k0 + 1, ?_⟩
                simp only [apply_subst_to_term, is_variable, hms, if_true]
                rw [subst_chain.eq_1 _ _ _ _ hc]
                exact stepsTo_eval htr k0 (le_refl k0)
            | none =>
              cases hst with
              | step _ v r0 k0 hl2 hst2 => rw [hl2w] at hl2; cases hl2
              | stopStr _ hnone =>
                have hc : lookup (compose theta1 theta2) s = some (Val.vstr w) := by
                  rw [compose_lookup, hl1]
                  simp [compose_value_update, hmw, hl2w]
                refine ⟨1, ?_⟩
                simp only [apply_subst_to_term, is_variable, hms, if_true]
                rw [subst_chain.eq_1 _ _ _ _ hc]
                have hcw : lookup (compose theta1 theta2) w = none := by
                  rw [compose_lookup, hw1]
                  exact hl2w
                exact subst_chain.eq_3 _ _ _ hcw
          · simp only [apply_subst_to_term, is_variable, hmw, if_true]
            exact stepsTo_eval hst k (le_refl k)
        · have hmwf : matchesVarRe w = false := by
            cases hb : matchesVarRe w
            · rfl
            · exact absurd hb hmw
          have hl2w : lookup theta2 w = none := by
            cases hq : lookup theta2 w with
            | some z => exact absurd (hW2.2 _ (lookup_mem hq)) (by simp [hmwf])
            | none => rfl
          refine ⟨Val.vstr w, Val.vstr w, ⟨1, ?_⟩, hm1, ⟨0, ?_⟩⟩
          · have hc : lookup (compose theta1 theta2) s = some (Val.vstr w) := by
              rw [compose_lookup, hl1]
              simp [compose_value_update, hmwf]
            simp only [apply_subst_to_term, is_variable, hms, if_true]
            rw [subst_chain.eq_1 _ _ _ _ hc]
            have hcw : lookup (compose theta1 theta2) w = none := by
              rw [compose_lookup, hw1]
              exact hl2w
            exact subst_chain.eq_3 _ _ _ hcw
          · simp [apply_subst_to_term, is_variable, hmwf]
    | none =>
      obtain ⟨r, k, hst, _⟩ := stepsTo_exists hW2 hAc2 hA2 ((keys theta2).length)
        (Val.vstr s) [] rfl List.nodup_nil (by intro a ha; simp at ha) (by simp)
      refine ⟨Val.vstr s, r, ⟨k, ?_⟩, ⟨0, ?_⟩, ⟨k, ?_⟩⟩
      · have htr := stepsTo_compose_of_theta2 havoid _ _ _ hst
          (fun w hw => by injection hw with hw2; rw [← hw2]; exact hl1)
        simp only [apply_subst_to_term, is_variable, hms, if_true]
        exact stepsTo_eval htr k (le_refl k)
      · simp only [apply_subst_to_term, is_variable, hms, if_true]
        exact subst_chain.eq_3 _ _ _ hl1
      · simp only [apply_subst_to_term, is_variable, hms, if_true]
        exact stepsTo_eval hst k (le_refl k)

/-- C9 as amended: `compose` performs a single-step update — each
binding of `theta1` whose value is a variable bound in `theta2` is
replaced by `theta2`'s immediate binding, and `theta2`'s bindings with
fresh keys are appended — rather than full sequential resolution.  The
sequential-application identity (`resolve through compose` equals
`resolve through theta1, then theta2`) holds only under additional
conditions: here, `theta1` flat (no `theta1` value is a `theta1` key)
and no `theta2` value naming a `theta1` key; the unconditional identity
is refuted by the counterexample. -/
theorem claimC9_amended :
    (∀ theta1 theta2 v,
      lookup (compose theta1 theta2) v =
        (match lookup theta1 v with
         | some val => some (compose_value_update theta2 val)
         | none => lookup theta2 v)) ∧
    (∀ theta1 theta2, WFS theta2 → AtomSub theta1 → AtomSub theta2 →
      AcyclicS theta2 →
      (∀ p ∈ theta1, ∀ s, p.2 = Val.vstr s → lookup theta1 s = none) →
      (∀ p ∈ theta2, ∀ s, p.2 = Val.vstr s → lookup theta1 s = none) →
      ∀ t r,
        (∃ f, apply_subst_to_term f t (compose theta1 theta2) = some r) ↔
        (∃ m, (∃ f, apply_subst_to_term f t theta1 = some m) ∧
          (∃ g, apply_subst_to_term g m theta2 = some r))) := by
  refine ⟨compose_lookup, ?_⟩
  intro theta1 theta2 hW2 hA1 hA2 hAc2 hflat havoid t r
  obtain ⟨m0, r0, hc0, h10, h20⟩ :=
    compose_seq_exists hW2 hA1 hA2 hAc2 hflat havoid t
  constructor
  · rintro ⟨f, hf⟩
    obtain ⟨fc, hfc⟩ := hc0
    have hr : r = r0 := apply_subst_det hf hfc
    subst hr
    exact ⟨m0, h10, h20⟩
  · rintro ⟨m, ⟨f, hf⟩, ⟨g, hg⟩⟩
    obtain ⟨f1, hf1⟩ := h10
    have hm : m = m0 := apply_subst_det hf hf1
    subst hm
    obtain ⟨g0, hg0⟩ := h20
    have hr : r = r0 := apply_subst_det hg hg0
    subst hr
    exact hc0

/-- Witness for the amended C9 on `theta1 = {X: Y}`, `theta2 = {Y: a}`:
resolving `X` through the composition and resolving sequentially agree
(both give `a`). -/
theorem claimC9_amended_witness :
    (∃ f, apply_subst_to_term f (.vstr "X")
        (compose [("X", Val.vstr "Y")] [("Y", Val.vstr "a")]) = some (.vstr "a")) ↔
    (∃ m, (∃ f, apply_subst_to_term f (.vstr "X") [("X", Val.vstr "Y")] = some m) ∧
      (∃ g, apply_subst_to_term g m [("Y", Val.vstr "a")] = some (.vstr "a"))) :=
  claimC9_amended.2 [("X", Val.vstr "Y")] [("Y", Val.vstr "a")]
    (by constructor <;> decide) (by decide) (by decide)
    (acyclicS_of_occurs 2 (by decide))
    (by
      intro p hp s hs
      simp at hp
      subst hp
      injection hs with hs2
      rw [← hs2]
      rfl)
    (by
      intro p hp s hs
      simp at hp
      subst hp
      injection hs with hs2
      rw [← hs2]
      rfl)
    (.vstr "X") (.vstr "a")

/-! ## Unification symmetry (C5): helpers -/

theorem asVarName_vstr {a : String} (hma : matchesVarRe a = true) :
    asVarName (Val.vstr a) = some a := by simp [asVarName, hma]

theorem unify_step_var_x {f : Nat} {a : String} {y : Val} {theta : Subst}
    (hne : Val.vstr a ≠ y) (hma : matchesVarRe a = true) :
    unify (f + 1) (Val.vstr a) y (some theta) = unify_var f a y theta := by
  simp only [unify]
  rw [if_neg hne, asVarName_vstr hma]

theorem unify_step_var_y {f : Nat} {x : Val} {b : String} {theta : Subst}
    (hne : x ≠ Val.vstr b) (hxnv : asVarName x = none) (hmb : matchesVarRe b = true) :
    unify (f + 1) x (Val.vstr b) (some theta) = unify_var f b x theta := by
  simp only [unify]
  rw [if_neg hne, hxnv]
  simp only []
  rw [asVarName_vstr hmb]

theorem unify_var_bound {f : Nat} {a : String} {y : Val} {theta : Subst} {u : Val}
    (hla : lookup theta a = some u) :
    unify_var (f + 1) a y theta = unify f u y (some theta) := by
  simp only [unify_var]
  rw [hla]

theorem unify_var_unbound_var {f : Nat} {a b : String} {theta : Subst} {w : Val}
    (hla : lookup theta a = none) (hmb : matchesVarRe b = true)
    (hlb : lookup theta b = some w) :
    unify_var (f + 1) a (Val.vstr b) theta = unify f (Val.vstr a) w (some theta) := by
  simp only [unify_var]
  rw [hla]
  simp only []
  rw [asVarName_vstr hmb]
  simp only []
  rw [hlb]

theorem unify_var_to_bind {f : Nat} {a : String} {y : Val} {theta : Subst}
    (hla : lookup theta a = none)
    (hcase : asVarName y = none ∨ (∃ b, asVarName y = some b ∧ lookup theta b = none)) :
    unify_var (f + 1) a y theta = unify_bind f a y theta := by
  simp only [unify_var]
  rw [hla]
  simp only []
  rcases hcase with h1 | ⟨b, h1, h2⟩
  · rw [h1]
  · rw [h1]
    simp only []
    rw [h2]

theorem unify_bind_eval {f : Nat} {a : String} {y : Val} {theta : Subst}
    (hocc : occurs_check (f + 1) a y theta = some false) :
    unify_bind (f + 1) a y theta = some (some (theta ++ [(a, y)])) := by
  simp only [unify_bind]
  rw [hocc]

theorem occurs_unbound_var {f : Nat} {a b : String} {theta : Subst}
    (hne : Val.vstr b ≠ Val.vstr a) (hmb : matchesVarRe b = true)
    (hlb : lookup theta b = none) :
    occurs_check (f + 1) a (Val.vstr b) theta = some false := by
  simp only [occurs_check]
  rw [if_neg hne, if_pos hmb, hlb]

theorem occurs_nonvar_atom {f : Nat} {a : String} {y : Val} {theta : Subst}
    (hne : y ≠ Val.vstr a) (hvy : is_variable y = false) (hay : atomVal y = true) :
    occurs_check (f + 1) a y theta = some false := by
  cases y with
  | vstr t =>
    have hmt : matchesVarRe t = false := hvy
    simp only [occurs_check]
    rw [if_neg hne]
    rw [if_neg (by simp [hmt])]
  | vint n =>
    simp only [occurs_check]
    rw [if_neg hne]
  | vlist xs => simp [atomVal] at hay

theorem stepsTo_nonvar {theta : Subst} (hW : WFS theta) {t r : Val} {k : Nat}
    (hvt : is_variable t = false) (h : StepsTo theta t r k) : r = t ∧ k = 0 := by
  cases h with
  | stopStr s hl => exact ⟨rfl, rfl⟩
  | stopInt n => exact ⟨rfl, rfl⟩
  | step s v r k hl hst =>
    have : matchesVarRe s = true := hW.2 _ (lookup_mem hl)
    have hvv : is_variable (Val.vstr s) = true := this
    rw [hvt] at hvv
    cases hvv

theorem chase_nonvar {th : Subst} (hW : WFS th) {u : Val}
    (hvu : is_variable u = false) (hau : atomVal u = true) :
    ∀ g, subst_chain g u th = some u := by
  intro g
  cases u with
  | vint n => simp [subst_chain]
  | vstr t =>
    have hmt : matchesVarRe t = false := hvu
    have hlt : lookup th t = none := by
      cases hq : lookup th t with
      | some z =>
        have := hW.2 _ (lookup_mem hq)
        rw [hmt] at this
        cases this
      | none => rfl
    exact subst_chain.eq_3 _ _ _ hlt
  | vlist xs => simp [atomVal] at hau

theorem chase_of_apply {th2 : Subst} (hW2 : WFS th2) {u rr : Val}
    (hau : atomVal u = true)
    (hg : ∃ g, apply_subst_to_term g u th2 = some rr) :
    ∃ g, subst_chain g u th2 = some rr := by
  obtain ⟨g, hg⟩ := hg
  by_cases hvu : is_variable u
  · refine ⟨g, ?_⟩
    simp only [apply_subst_to_term, if_pos hvu] at hg
    exact hg
  · simp only [apply_subst_to_term, if_neg hvu] at hg
    injection hg with hg
    subst hg
    exact ⟨0, chase_nonvar hW2 (by simpa using hvu) hau 0⟩

theorem resolve_prepend {th2 : Subst} (hW2 : WFS th2) {a : String} {u rr : Val}
    (hma : matchesVarRe a = true) (hl : lookup th2 a = some u)
    (hau : atomVal u = true)
    (hg : ∃ g, apply_subst_to_term g u th2 = some rr) :
    ∃ g, apply_subst_to_term g (Val.vstr a) th2 = some rr := by
  obtain ⟨g2, hg2⟩ := chase_of_apply hW2 hau hg
  refine ⟨g2 + 1, ?_⟩
  have hva : is_variable (Val.vstr a) = true := hma
  simp only [apply_subst_to_term, if_pos hva]
  rw [subst_chain.eq_1 _ _ _ _ hl]
  exact hg2

theorem stepsTo_apply {theta : Subst} (hW : WFS theta) {t r : Val} {k : Nat}
    (h : StepsTo theta t r k) :
    ∃ g, apply_subst_to_term g t theta = some r := by
  by_cases hv : is_variable t
  · refine ⟨k, ?_⟩
    simp only [apply_subst_to_term, if_pos hv]
    exact stepsTo_eval h k (le_refl k)
  · have hr := stepsTo_nonvar hW (by simpa using hv) h
    refine ⟨0, ?_⟩
    simp only [apply_subst_to_term, if_neg hv]
    rw [hr.1]

/- The heart of C5: over a wellformed, acyclic, atom-valued
substitution, unification of two atoms (a) stabilizes from some fuel
on, (b) succeeds exactly when the two resolved endpoints are equal or
at least one endpoint is an unbound variable — a condition symmetric
in the two arguments — and (c) on success returns an extension of the
input substitution under which both arguments resolve to one common
value.  By strong induction on the combined chain lengths. -/
theorem unify_sym_main {theta : Subst} (hW : WFS theta) (hA : AtomSub theta)
    (hAc : AcyclicS theta) :
    ∀ n : Nat, ∀ x y rx ry : Val, ∀ kx ky : Nat,
      atomVal x = true → atomVal y = true →
      StepsTo theta x rx kx → StepsTo theta y ry ky → kx + ky ≤ n →
      ∃ f : Nat, ∃ res : Option Subst,
        (∀ f2, f ≤ f2 → unify f2 x y (some theta) = some res) ∧
        ((∃ th2, res = some th2) ↔
          (rx = ry ∨ is_variable rx = true ∨ is_variable ry = true)) ∧
        (∀ th2, res = some th2 →
          WFS th2 ∧ AtomSub th2 ∧ AcyclicS th2 ∧
          (∃ delta, th2 = theta ++ delta) ∧
          ∃ rr, (∃ g, apply_subst_to_term g x th2 = some rr) ∧
                (∃ g, apply_subst_to_term g y th2 = some rr)) := by
  intro n
  induction n using Nat.strong_induction_on with
  | _ n IH =>
  intro x y rx ry kx ky hax hay hsx hsy hn
  by_cases hxy : x = y
  · -- identical terms: immediate success with the unchanged substitution
    subst hxy
    obtain ⟨hr, hk⟩ := stepsTo_det hsx hsy
    refine ⟨1, some theta, ?_, ?_, ?_⟩
    · intro f2 hf2
      obtain ⟨g, rfl⟩ : ∃ g, f2 = g + 1 := ⟨f2 - 1, by omega⟩
      simp [unify]
    · exact ⟨fun _ => Or.inl hr, fun _ => ⟨theta, rfl⟩⟩
    · intro th2 hres
      injection hres with hres
      subst hres
      refine ⟨hW, hA, hAc, ⟨[], by simp⟩, rx, stepsTo_apply hW hsx, ?_⟩
      rw [hr]
      exact stepsTo_apply hW hsy
  · cases hvx : asVarName x with
    | some a =>
      obtain ⟨hxa, hma⟩ := asVarName_eq_some hvx
      subst hxa
      cases hsx with
      | step _ v _ k hl hst =>
        -- x is a bound variable: unify recurses on its stored value
        have hav : atomVal v = true := hA (a, v) (lookup_mem hl)
        obtain ⟨f, res, hstab, hcond, hsucc⟩ :=
          IH (k + ky) (by omega) v y rx ry k ky hav hay hst hsy (le_refl _)
        refine ⟨f + 1 + 1, res, ?_, hcond, ?_⟩
        · intro f2 hf2
          obtain ⟨g, rfl⟩ : ∃ g, f2 = g + 1 + 1 := ⟨f2 - 2, by omega⟩
          rw [unify_step_var_x hxy hma, unify_var_bound hl]
          exact hstab g (by omega)
        · intro th2 hres
          obtain ⟨hW2, hA2, hAc2, ⟨delta, hdelta⟩, rr, hgv, hgy⟩ := hsucc th2 hres
          refine ⟨hW2, hA2, hAc2, ⟨delta, hdelta⟩, rr, ?_, hgy⟩
          have hlth2 : lookup th2 a = some v := by
            rw [hdelta, lookup_append, hl]
          exact resolve_prepend hW2 hma hlth2 hav hgv
      | stopStr _ hnone =>
        -- x is an unbound variable (so rx = x, kx = 0); inspect y
        cases hvy : asVarName y with
        | some b =>
          obtain ⟨hyb, hmb⟩ := asVarName_eq_some hvy
          subst hyb
          cases hsy with
          | step _ w _ k1 hlb hst1 =>
            -- y is a bound variable: unify recurses with x against its value
            have haw : atomVal w = true := hA (b, w) (lookup_mem hlb)
            obtain ⟨f, res, hstab, hcond, hsucc⟩ :=
              IH k1 (by omega) (Val.vstr a) w (Val.vstr a) ry 0 k1 rfl haw
                (StepsTo.stopStr a hnone) hst1 (by omega)
            refine ⟨f + 1 + 1, res, ?_, hcond, ?_⟩
            · intro f2 hf2
              obtain ⟨g, rfl⟩ : ∃ g, f2 = g + 1 + 1 := ⟨f2 - 2, by omega⟩
              rw [unify_step_var_x hxy hma, unify_var_unbound_var hnone hmb hlb]
              exact hstab g (by omega)
            · intro th2 hres
              obtain ⟨hW2, hA2, hAc2, ⟨delta, hdelta⟩, rr, hgx, hgw⟩ :=
                hsucc th2 hres
              refine ⟨hW2, hA2, hAc2, ⟨delta, hdelta⟩, rr, hgx, ?_⟩
              have hlth2 : lookup th2 b = some w := by
                rw [hdelta, lookup_append, hlb]
              exact resolve_prepend hW2 hmb hlth2 haw hgw
          | stopStr _ hnb =>
            -- two distinct unbound variables: bind a to y
            have hab : a ≠ b := fun h => hxy (by rw [h])
            have hocc : ∀ fo : Nat,
                occurs_check (fo + 1) a (Val.vstr b) theta = some false :=
              fun fo => occurs_unbound_var (fun h => hxy h.symm) hmb hnb
            have hl2a :
                lookup (theta ++ [(a, Val.vstr b)]) a = some (Val.vstr b) := by
              rw [lookup_append, hnone]; simp [lookup]
            have hl2b : lookup (theta ++ [(a, Val.vstr b)]) b = none := by
              rw [lookup_append, hnb]; simp [lookup, hab]
            refine ⟨3, some (theta ++ [(a, Val.vstr b)]), ?_, ?_, ?_⟩
            · intro f2 hf2
              obtain ⟨g, rfl⟩ : ∃ g, f2 = g + 1 + 1 + 1 := ⟨f2 - 3, by omega⟩
              rw [unify_step_var_x hxy hma,
                  unify_var_to_bind hnone (Or.inr ⟨b, asVarName_vstr hmb, hnb⟩),
                  unify_bind_eval (hocc g)]
            · constructor
              · intro _
                exact Or.inr (Or.inl hma)
              · intro _
                exact ⟨_, rfl⟩
            · intro th2 hres
              injection hres with hres
              subst hres
              have hnocc : ¬ VarOccursIn theta a (Val.vstr b) := by
                intro hv
                have := ((occurs_check_correct 1).1 a (Val.vstr b) theta false
                  (hocc 0)).mpr hv
                cases this
              obtain ⟨hW2, hAc2⟩ := acyclic_extend hW hAc hnone hma hnocc
              have hA2 : AtomSub (theta ++ [(a, Val.vstr b)]) := by
                intro p hp
                rcases List.mem_append.mp hp with h | h
                · exact hA p h
                · simp only [List.mem_singleton] at h
                  subst h
                  rfl
              refine ⟨hW2, hA2, hAc2, ⟨[(a, Val.vstr b)], rfl⟩, Val.vstr b,
                ⟨2, ?_⟩, ⟨1, ?_⟩⟩
              · have hva : is_variable (Val.vstr a) = true := hma
                simp only [apply_subst_to_term, if_pos hva]
                rw [subst_chain.eq_1 _ _ _ _ hl2a]
                exact subst_chain.eq_3 _ _ _ hl2b
              · have hvb : is_variable (Val.vstr b) = true := hmb
                simp only [apply_subst_to_term, if_pos hvb]
                exact subst_chain.eq_3 _ _ _ hl2b
        | none =>
          -- y is not a variable: bind a to y
          have hvy2 : is_variable y = false := asVarName_eq_none hvy
          obtain ⟨hry, hky⟩ := stepsTo_nonvar hW hvy2 hsy
          have hney : y ≠ Val.vstr a := fun h => hxy h.symm
          have hocc : ∀ fo : Nat, occurs_check (fo + 1) a y theta = some false :=
            fun fo => occurs_nonvar_atom hney hvy2 hay
          have hl2a : lookup (theta ++ [(a, y)]) a = some y := by
            rw [lookup_append, hnone]; simp [lookup]
          refine ⟨3, some (theta ++ [(a, y)]), ?_, ?_, ?_⟩
          · intro f2 hf2
            obtain ⟨g, rfl⟩ : ∃ g, f2 = g + 1 + 1 + 1 := ⟨f2 - 3, by omega⟩
            rw [unify_step_var_x hxy hma,
                unify_var_to_bind hnone (Or.inl hvy),
                unify_bind_eval (hocc g)]
          · constructor
            · intro _
              exact Or.inr (Or.inl hma)
            · intro _
              exact ⟨_, rfl⟩
          · intro th2 hres
            injection hres with hres
            subst hres
            have hnocc : ¬ VarOccursIn theta a y := by
              intro hv
              have := ((occurs_check_correct 1).1 a y theta false
                (hocc 0)).mpr hv
              cases this
            obtain ⟨hW2, hAc2⟩ := acyclic_extend hW hAc hnone hma hnocc
            have hA2 : AtomSub (theta ++ [(a, y)]) := by
              intro p hp
              rcases List.mem_append.mp hp with h | h
              · exact hA p h
              · simp only [List.mem_singleton] at h
                subst h
                exact hay
            refine ⟨hW2, hA2, hAc2, ⟨[(a, y)], rfl⟩, y, ⟨1, ?_⟩, ⟨0, ?_⟩⟩
            · have hva : is_variable (Val.vstr a) = true := hma
              simp only [apply_subst_to_term, if_pos hva]
              rw [subst_chain.eq_1 _ _ _ _ hl2a]
              exact chase_nonvar hW2 hvy2 hay 0
            · simp [apply_subst_to_term, hvy2]
    | none =>
      -- x is not a variable (so rx = x, kx = 0)
      have hvx2 : is_variable x = false := asVarName_eq_none hvx
      obtain ⟨hrx, hkx⟩ := stepsTo_nonvar hW hvx2 hsx
      cases hvy : asVarName y with
      | some b =>
        obtain ⟨hyb, hmb⟩ := asVarName_eq_some hvy
        subst hyb
        cases hsy with
        | step _ w _ k1 hlb hst1 =>
          -- y is a bound variable: unify recurses on its value, swapped
          have haw : atomVal w = true := hA (b, w) (lookup_mem hlb)
          obtain ⟨f, res, hstab, hcond, hsucc⟩ :=
            IH (k1 + kx) (by omega) w x ry rx k1 kx haw hax hst1 hsx (le_refl _)
          refine ⟨f + 1 + 1, res, ?_, ?_, ?_⟩
          · intro f2 hf2
            obtain ⟨g, rfl⟩ : ∃ g, f2 = g + 1 + 1 := ⟨f2 - 2, by omega⟩
            rw [unify_step_var_y hxy hvx hmb, unify_var_bound hlb]
            exact hstab g (by omega)
          · rw [hcond]
            constructor
            · rintro (h | h | h)
              exacts [Or.inl h.symm, Or.inr (Or.inr h), Or.inr (Or.inl h)]
            · rintro (h | h | h)
              exacts [Or.inl h.symm, Or.inr (Or.inr h), Or.inr (Or.inl h)]
          · intro th2 hres
            obtain ⟨hW2, hA2, hAc2, ⟨delta, hdelta⟩, rr, hgw, hgx⟩ :=
              hsucc th2 hres
            refine ⟨hW2, hA2, hAc2, ⟨delta, hdelta⟩, rr, hgx, ?_⟩
            have hlth2 : lookup th2 b = some w := by
              rw [hdelta, lookup_append, hlb]
            exact resolve_prepend hW2 hmb hlth2 haw hgw
        | stopStr _ hnb =>
          -- y is an unbound variable, x is not a variable: bind b to x
          have hnex : x ≠ Val.vstr b := hxy
          have hocc : ∀ fo : Nat, occurs_check (fo + 1) b x theta = some false :=
            fun fo => occurs_nonvar_atom hnex hvx2 hax
          have hl2b : lookup (theta ++ [(b, x)]) b = some x := by
            rw [lookup_append, hnb]; simp [lookup]
          refine ⟨3, some (theta ++ [(b, x)]), ?_, ?_, ?_⟩
          · intro f2 hf2
            obtain ⟨g, rfl⟩ : ∃ g, f2 = g + 1 + 1 + 1 := ⟨f2 - 3, by omega⟩
            rw [unify_step_var_y hxy hvx hmb,
                unify_var_to_bind hnb (Or.inl hvx),
                unify_bind_eval (hocc g)]
          · constructor
            · intro _
              exact Or.inr (Or.inr hmb)
            · intro _
              exact ⟨_, rfl⟩
          · intro th2 hres
            injection hres with hres
            subst hres
            have hnocc : ¬ VarOccursIn theta b x := by
              intro hv
              have := ((occurs_check_correct 1).1 b x theta false
                (hocc 0)).mpr hv
              cases this
            obtain ⟨hW2, hAc2⟩ := acyclic_extend hW hAc hnb hmb hnocc
            have hA2 : AtomSub (theta ++ [(b, x)]) := by
              intro p hp
              rcases List.mem_append.mp hp with h | h
              · exact hA p h
              · simp only [List.mem_singleton] at h
                subst h
                exact hax
            refine ⟨hW2, hA2, hAc2, ⟨[(b, x)], rfl⟩, x, ⟨0, ?_⟩, ⟨1, ?_⟩⟩
            · simp [apply_subst_to_term, hvx2]
            · have hvb : is_variable (Val.vstr b) = true := hmb
              simp only [apply_subst_to_term, if_pos hvb]
              rw [subst_chain.eq_1 _ _ _ _ hl2b]
              exact chase_nonvar hW2 hvx2 hax 0
      | none =>
        -- two distinct non-variables: unification fails
        have hvy2 : is_variable y = false := asVarName_eq_none hvy
        obtain ⟨hry, hky⟩ := stepsTo_nonvar hW hvy2 hsy
        refine ⟨1, none, ?_, ?_, ?_⟩
        · intro f2 hf2
          obtain ⟨g, rfl⟩ : ∃ g, f2 = g + 1 := ⟨f2 - 1, by omega⟩
          simp only [unify]
          rw [if_neg hxy, hvx]
          simp only []
          rw [hvy]
          simp only []
          cases x with
          | vstr s =>
            cases y with
            | vstr t => rfl
            | vint m => rfl
            | vlist ys => simp [atomVal] at hay
          | vint m =>
            cases y with
            | vstr t => rfl
            | vint m2 => rfl
            | vlist ys => simp [atomVal] at hay
          | vlist xs => simp [atomVal] at hax
        · constructor
          · rintro ⟨th2, h⟩
            cases h
          · rintro (h | h | h)
            · exfalso
              apply hxy
              rw [← hrx, ← hry]
              exact h
            · rw [hrx, hvx2] at h
              cases h
            · rw [hry, hvy2] at h
              cases h
        · intro th2 h
          cases h

/-- C5: unification is symmetric.  Over the spec's data model (terms
are atoms; substitutions have unique variable-name keys, atom values
and no binding chains that loop), `unify(a, b, s)` succeeds for some
fuel iff `unify(b, a, s)` does, and every substitution returned by a
successful `unify(a, b, s)` resolves `a` and `b` (via
`apply_subst_to_term`) to one common final value. -/
theorem claimC5 : ∀ (theta : Subst) (x y : Val),
    WFS theta → AtomSub theta → AcyclicS theta →
    atomVal x = true → atomVal y = true →
    ((∃ f th2, unify f x y (some theta) = some (some th2)) ↔
     (∃ f th2, unify f y x (some theta) = some (some th2))) ∧
    (∀ f th2, unify f x y (some theta) = some (some th2) →
      ∃ r, (∃ g, apply_subst_to_term g x th2 = some r) ∧
           (∃ g, apply_subst_to_term g y th2 = some r)) := by
  intro theta x y hW hA hAc hax hay
  obtain ⟨rx, kx, hsx, _⟩ := stepsTo_exists hW hAc hA (keys theta).length x []
    hax (by simp) (by simp) (by simp)
  obtain ⟨ry, ky, hsy, _⟩ := stepsTo_exists hW hAc hA (keys theta).length y []
    hay (by simp) (by simp) (by simp)
  obtain ⟨f1, res1, hst1, hcond1, hsucc1⟩ :=
    unify_sym_main hW hA hAc (kx + ky) x y rx ry kx ky hax hay hsx hsy
      (le_refl _)
  obtain ⟨f2, res2, hst2, hcond2, hsucc2⟩ :=
    unify_sym_main hW hA hAc (ky + kx) y x ry rx ky kx hay hax hsy hsx
      (le_refl _)
  have key1 : (∃ f th2, unify f x y (some theta) = some (some th2)) ↔
      ∃ th2, res1 = some th2 := by
    constructor
    · rintro ⟨f, th2, h⟩
      rcases Nat.le_total f f1 with hle | hle
      · have h2 := (unify_mono f f1 hle).1 _ _ _ _ h
        rw [hst1 f1 (le_refl f1)] at h2
        injection h2 with h2
        exact ⟨th2, h2⟩
      · rw [hst1 f hle] at h
        injection h with h
        exact ⟨th2, h⟩
    · rintro ⟨th2, h⟩
      exact ⟨f1, th2, by rw [hst1 f1 (le_refl f1), h]⟩
  have key2 : (∃ f th2, unify f y x (some theta) = some (some th2)) ↔
      ∃ th2, res2 = some th2 := by
    constructor
    · rintro ⟨f, th2, h⟩
      rcases Nat.le_total f f2 with hle | hle
      · have h2 := (unify_mono f f2 hle).1 _ _ _ _ h
        rw [hst2 f2 (le_refl f2)] at h2
        injection h2 with h2
        exact ⟨th2, h2⟩
      · rw [hst2 f hle] at h
        injection h with h
        exact ⟨th2, h⟩
    · rintro ⟨th2, h⟩
      exact ⟨f2, th2, by rw [hst2 f2 (le_refl f2), h]⟩
  constructor
  · rw [key1, key2, hcond1, hcond2]
    constructor
    · rintro (h | h | h)
      exacts [Or.inl h.symm, Or.inr (Or.inr h), Or.inr (Or.inl h)]
    · rintro (h | h | h)
      exacts [Or.inl h.symm, Or.inr (Or.inr h), Or.inr (Or.inl h)]
  · intro f th2 h
    have hres1 : res1 = some th2 := by
      rcases Nat.le_total f f1 with hle | hle
      · have h2 := (unify_mono f f1 hle).1 _ _ _ _ h
        rw [hst1 f1 (le_refl f1)] at h2
        exact Option.some.inj h2
      · rw [hst1 f hle] at h
        exact Option.some.inj h
    obtain ⟨_, _, _, _, rr, hgx, hgy⟩ := hsucc1 th2 hres1
    exact ⟨rr, hgx, hgy⟩

/-- Witness for C5 at a concrete input: the empty substitution with
the variable `X` against the constant `a`. -/
theorem claimC5_witness :
    ((∃ f th2,
        unify f (Val.vstr "X") (Val.vstr "a") (some ([] : Subst)) =
          some (some th2)) ↔
     (∃ f th2,
        unify f (Val.vstr "a") (Val.vstr "X") (some ([] : Subst)) =
          some (some th2))) ∧
    (∀ f th2,
        unify f (Val.vstr "X") (Val.vstr "a") (some ([] : Subst)) =
          some (some th2) →
      ∃ r, (∃ g, apply_subst_to_term g (Val.vstr "X") th2 = some r) ∧
           (∃ g, apply_subst_to_term g (Val.vstr "a") th2 = some r)) :=
  claimC5 [] (Val.vstr "X") (Val.vstr "a") WFS_nil AtomSub_nil AcyclicS_nil
    rfl rfl
